import Mathlib

/-!
# Verification of the scale-value text codec (`src/string_impls`)

A shallow embedding of `from_string.rs` (recursive-descent parser) and
`to_string.rs` (formatter) for the `scale-value` crate, together with proofs
about the claims of the specification.

Conventions of the embedding:
* Rust `char` is Lean `Char`; input text is a `List Char` plus a byte offset
  (`Toks`), mirroring yap's `StrTokens` (byte offsets are advanced by
  `Char.utf8Size`).
* Rust `u128`/`i128` are `Nat`/`Int`; the machine-width bounds show up as
  explicit `2 ^ 128` / `2 ^ 127` checks where the source can overflow.
* `Result<T, Option<ParseError>>` is `Except (Option ParseError) T`; a `.error
  none` is the "no-match" outcome, `.error (some e)` the hard error.
* The source's mutual recursion (values contain composites contain values) is
  driven by an explicit `fuel : Nat` bounding the value-nesting depth;
  `from_str` supplies `length + 1` fuel, which always suffices because every
  nesting level consumes at least one character.  Similarly yap's `sep_by_err`
  iterator is given an iteration budget (`length + 1`), which always suffices
  because every separator consumes at least one character.
* The `character predicates `is_alphabetic`/`is_alphanumeric`/`is_whitespace`
  of Rust are Unicode-aware; they are embedded as Lean's ASCII
  `Char.isAlpha`/`Char.isAlphanum`/`Char.isWhitespace`, which agree with the
  Rust ones on every ASCII input relevant to the claims.
-/

set_option maxRecDepth 4096

namespace ScaleValue

/-! ## Named special characters, defined by code point -/

def lbrace : Char := Char.ofNat 123
def rbrace : Char := Char.ofNat 125
def squote : Char := Char.ofNat 39
def dquote : Char := Char.ofNat 34
def bslash : Char := Char.ofNat 92
def nulChar : Char := Char.ofNat 0
def nlChar : Char := Char.ofNat 10
def crChar : Char := Char.ofNat 13
def tabChar : Char := Char.ofNat 9

/-! ## Escape codec

Modelled from the spec: `string_helpers.rs` is not under `src/`; §4.4 gives the
exact bidirectional table: newline↔`n`, carriage-return↔`r`, tab↔`t`, nul↔`0`,
backslash↔`\`, single-quote↔`'`, double-quote↔`"`. -/

/-- Modelled from the spec: `string_helpers::to_escape_code` (§4.4 table). -/
def to_escape_code (c : Char) : Option Char :=
  if c = nlChar then some 'n'
  else if c = crChar then some 'r'
  else if c = tabChar then some 't'
  else if c = nulChar then some '0'
  else if c = bslash then some bslash
  else if c = squote then some squote
  else if c = dquote then some dquote
  else none

/-- Modelled from the spec: `string_helpers::from_escape_code` (§4.4 table,
read right-to-left). -/
def from_escape_code (c : Char) : Option Char :=
  if c = 'n' then some nlChar
  else if c = 'r' then some crChar
  else if c = 't' then some tabChar
  else if c = '0' then some nulChar
  else if c = bslash then some bslash
  else if c = squote then some squote
  else if c = dquote then some dquote
  else none

/-! ## The value data model

Modelled from the spec (§3): `value.rs` is not under `src/`.  `Value<T>` pairs
a context `T` with a `ValueDef<T>`; `ValueDef` has exactly the four variants
`Composite`, `Variant`, `BitSequence`, `Primitive`; `Composite` is `Named`
(ordered field-name/value pairs) or `Unnamed` (ordered values); a `Variant` is
a name plus a composite (the `Variant` struct is flattened into the
constructor); a `BitSequence` is an ordered list of booleans; `Primitive`
carries `Bool`, `Char`, `String`, `U128`, `I128` and the two textually
unsupported kinds `U256`/`I256` (32-byte payloads, irrelevant to the codec,
kept as a byte list). -/

inductive Primitive : Type where
  | bool (b : Bool)
  | char (c : Char)
  | string (s : String)
  | u128 (n : Nat)
  | i128 (n : Int)
  | u256 (bytes : List Nat)
  | i256 (bytes : List Nat)
  deriving DecidableEq

mutual
inductive Value (T : Type) : Type where
  | mk (value : ValueDef T) (context : T)

inductive ValueDef (T : Type) : Type where
  | composite (c : Composite T)
  | variant (name : String) (values : Composite T)
  | bitSequence (bits : List Bool)
  | primitive (p : Primitive)

inductive Composite (T : Type) : Type where
  | named (fields : List (String × Value T))
  | unnamed (vals : List (Value T))
end

/-- `Value::bool` constructor (context `()`). -/
def Value.bool (b : Bool) : Value Unit := .mk (.primitive (.bool b)) ()
/-- `Value::char` constructor (context `()`). -/
def Value.char (c : Char) : Value Unit := .mk (.primitive (.char c)) ()
/-- `Value::string` constructor (context `()`). -/
def Value.string (s : String) : Value Unit := .mk (.primitive (.string s)) ()
/-- `Value::primitive` constructor (context `()`). -/
def Value.primitive (p : Primitive) : Value Unit := .mk (.primitive p) ()
/-- `Value::bit_sequence` constructor (context `()`). -/
def Value.bit_sequence (bits : List Bool) : Value Unit := .mk (.bitSequence bits) ()
/-- `Value::uint` constructor. -/
def Value.uint (n : Nat) : Value Unit := .mk (.primitive (.u128 n)) ()
/-- `Value::int` constructor. -/
def Value.int (n : Int) : Value Unit := .mk (.primitive (.i128 n)) ()
/-- `Primitive::uint`. -/
def Primitive.uint (n : Nat) : Primitive := .u128 n
/-- `Primitive::int`. -/
def Primitive.int (n : Int) : Primitive := .i128 n

mutual
/-- `Value::remove_context` (erase the context to `()`), as used by the
crate's own round-trip tests. -/
def remove_context {T : Type} : Value T → Value Unit
  | .mk d _ => .mk (remove_context_def d) ()

def remove_context_def {T : Type} : ValueDef T → ValueDef Unit
  | .composite c => .composite (remove_context_composite c)
  | .variant name values => .variant name (remove_context_composite values)
  | .bitSequence bits => .bitSequence bits
  | .primitive p => .primitive p

def remove_context_composite {T : Type} : Composite T → Composite Unit
  | .named fields => .named (remove_context_fields fields)
  | .unnamed vals => .unnamed (remove_context_vals vals)

def remove_context_fields {T : Type} : List (String × Value T) → List (String × Value Unit)
  | [] => []
  | (n, v) :: rest => (n, remove_context v) :: remove_context_fields rest

def remove_context_vals {T : Type} : List (Value T) → List (Value Unit)
  | [] => []
  | v :: rest => remove_context v :: remove_context_vals rest
end

/-! ## The formatter (`to_string.rs`) -/

/-- `is_ident` from `to_string.rs` — the loop body translated verbatim,
including the parenthesisation of its condition. -/
def is_ident_loop : Nat → List Char → Bool
  | _, [] => true
  | idx, c :: rest =>
    if (idx == 0 && !c.isAlpha) || !c.isAlphanum || c != '_' then false
    else is_ident_loop (idx + 1) rest

/-- `is_ident` from `to_string.rs` (documented there as "Is the string
provided a valid ident (as per from_string::parse_ident)"). -/
def is_ident (s : String) : Bool := is_ident_loop 0 s.toList

/-- The characters written for one char inside a char/string literal:
either `\` + escape code, or the char itself (`fmt_string`/`fmt_char` loop
bodies). -/
def escape_char_seq (c : Char) : List Char :=
  match to_escape_code c with
  | some ec => [bslash, ec]
  | none => [c]

def escape_chars : List Char → List Char
  | [] => []
  | c :: rest => escape_char_seq c ++ escape_chars rest

/-- `fmt_string` from `to_string.rs`. -/
def fmt_string (s : String) : List Char :=
  dquote :: escape_chars s.toList ++ [dquote]

/-- `fmt_char` from `to_string.rs`. -/
def fmt_char (c : Char) : List Char :=
  squote :: escape_char_seq c ++ [squote]

/-- `fmt_bitsequence` from `to_string.rs`. -/
def fmt_bitsequence (bits : List Bool) : List Char :=
  '<' :: bits.map (fun b => if b then '1' else '0') ++ ['>']

/-- One decimal digit character. -/
def digit_char (d : Nat) : Char := Char.ofNat (48 + d)

/-- Decimal digits of a natural number (embedding of Rust's `u128` `Display`);
the first argument is recursion fuel, always sufficient at `n + 1`. -/
def nat_decimal_go : Nat → Nat → List Char
  | 0, _ => []
  | fuel + 1, n =>
    if n < 10 then [digit_char n]
    else nat_decimal_go fuel (n / 10) ++ [digit_char (n % 10)]

/-- Decimal digits of a natural number (Rust `u128` `Display`). -/
def nat_decimal (n : Nat) : List Char := nat_decimal_go (n + 1) n

/-- Decimal form of an integer (Rust `i128` `Display`): `-` followed by the
digits of the absolute value when negative. -/
def int_decimal (n : Int) : List Char :=
  if n < 0 then '-' :: nat_decimal n.natAbs else nat_decimal n.toNat

/-- `Display for Primitive` from `to_string.rs`: fails (`none`) on the two
256-bit primitives, succeeds on everything else. -/
def fmt_primitive : Primitive → Option (List Char)
  | .bool true => some "true".toList
  | .bool false => some "false".toList
  | .char c => some (fmt_char c)
  | .i128 n => some (int_decimal n)
  | .u128 n => some (nat_decimal n)
  | .string s => some (fmt_string s)
  | .u256 _ => none
  | .i256 _ => none

/-- The variant-name part of `Display for Variant`: the raw name when
`is_ident` accepts it, else `v` followed by the quoted escaped name. -/
def fmt_variant_name (name : String) : List Char :=
  if is_ident name then name.toList else 'v' :: fmt_string name

/-- The field-name part of `Display for Composite` (`Named` branch): the raw
name when `is_ident` accepts it, else the quoted escaped name. -/
def fmt_field_name (name : String) : List Char :=
  if is_ident name then name.toList else fmt_string name

mutual
/-- `Display for Value` from `to_string.rs`: formats the inner `ValueDef`,
ignoring the context. -/
def fmt_value {T : Type} : Value T → Option (List Char)
  | .mk d _ => fmt_value_def d

/-- `Display for ValueDef` from `to_string.rs`. -/
def fmt_value_def {T : Type} : ValueDef T → Option (List Char)
  | .composite c => fmt_composite c
  | .variant name values =>
    match fmt_composite values with
    | none => none
    | some body => some (fmt_variant_name name ++ body)
  | .bitSequence bits => some (fmt_bitsequence bits)
  | .primitive p => fmt_primitive p

/-- `Display for Composite` from `to_string.rs`: `{ `/` }` around
`, `-joined `name: value` pairs, `(`/`)` around `, `-joined values. -/
def fmt_composite {T : Type} : Composite T → Option (List Char)
  | .named fields =>
    match fmt_fields fields with
    | none => none
    | some inner => some (lbrace :: ' ' :: inner ++ [' ', rbrace])
  | .unnamed vals =>
    match fmt_vals vals with
    | none => none
    | some inner => some ('(' :: inner ++ [')'])

/-- The named-composite field loop of `Display for Composite`: each entry is
`name: value`, with `, ` written before every entry but the first. -/
def fmt_fields {T : Type} : List (String × Value T) → Option (List Char)
  | [] => some []
  | (name, v) :: rest =>
    match fmt_value v with
    | none => none
    | some vc =>
      match fmt_fields rest with
      | none => none
      | some rc =>
        some (fmt_field_name name ++ ':' :: ' ' :: vc ++
          (if rest.isEmpty then [] else ',' :: ' ' :: rc))

/-- The unnamed-composite loop of `Display for Composite`. -/
def fmt_vals {T : Type} : List (Value T) → Option (List Char)
  | [] => some []
  | v :: rest =>
    match fmt_value v with
    | none => none
    | some vc =>
      match fmt_vals rest with
      | none => none
      | some rc => some (vc ++ (if rest.isEmpty then [] else ',' :: ' ' :: rc))
end

/-- `format`: the spec's §6 entry point — collect the `Display` output, or
fail with the unsupported-primitive condition (`none`). -/
def format {T : Type} (v : Value T) : Option String :=
  match fmt_value v with
  | some cs => some (String.mk cs)
  | none => none

/-! ## Structural predicates used by the claims -/

/-- Does a primitive mention a 256-bit kind? -/
def prim_is_256 : Primitive → Bool
  | .u256 _ => true
  | .i256 _ => true
  | _ => false

mutual
/-- Does the value contain a `U256`/`I256` primitive anywhere inside? -/
def has_256_value {T : Type} : Value T → Bool
  | .mk d _ => has_256_def d

def has_256_def {T : Type} : ValueDef T → Bool
  | .composite c => has_256_composite c
  | .variant _ values => has_256_composite values
  | .bitSequence _ => false
  | .primitive p => prim_is_256 p

def has_256_composite {T : Type} : Composite T → Bool
  | .named fields => has_256_fields fields
  | .unnamed vals => has_256_vals vals

def has_256_fields {T : Type} : List (String × Value T) → Bool
  | [] => false
  | (_, v) :: rest => has_256_value v || has_256_fields rest

def has_256_vals {T : Type} : List (Value T) → Bool
  | [] => false
  | v :: rest => has_256_value v || has_256_vals rest
end

/-! ## Parse errors (`from_string.rs`) -/

inductive ParseComplexError : Type where
  | invalidStartingCharacterInIdent
  | invalidFieldName
  | missingFieldSeparator (c : Char)
  | expectedCloserToMatch (c : Char) (pos : Nat)
  deriving DecidableEq

inductive ParseCharError : Type where
  | expectedValidCharacter
  | expectedValidEscapeCode
  | expectedClosingQuoteToMatch (pos : Nat)
  deriving DecidableEq

inductive ParseStringError : Type where
  | expectedClosingQuoteToMatch (pos : Nat)
  | expectedValidEscapeCode
  deriving DecidableEq

/-- `ParseNumberError`; the `ParsingFailed` payload (std's `ParseIntError`)
carries no information the claims need, so it is dropped. -/
inductive ParseNumberError : Type where
  | expectedDigit
  | parsingFailed
  deriving DecidableEq

inductive ParseBitSequenceError : Type where
  | expectedClosingBracketToMatch (pos : Nat)
  | invalidCharacter
  deriving DecidableEq

inductive ParseErrorKind : Type where
  | expectedValue
  | complex (e : ParseComplexError)
  | char (e : ParseCharError)
  | string (e : ParseStringError)
  | number (e : ParseNumberError)
  | bitSequence (e : ParseBitSequenceError)
  deriving DecidableEq

/-- A positioned parse error: byte offset it begins, optional byte offset it
ends, and the error detail. -/
structure ParseError : Type where
  start_loc : Nat
  end_loc : Option Nat
  err : ParseErrorKind
  deriving DecidableEq

def ParseError.new_at (err : ParseErrorKind) (loc : Nat) : ParseError :=
  ⟨loc, none, err⟩

def ParseError.new_between (err : ParseErrorKind) (start finish : Nat) : ParseError :=
  ⟨start, some finish, err⟩

/- The `at_between!` helper methods (`at`/`at_one`/`between`) for each
sub-error kind; `at` is a Lean keyword, so it is rendered `atLoc`. -/

def ParseComplexError.atLoc (e : ParseComplexError) (loc : Nat) : ParseError :=
  ParseError.new_at (.complex e) loc
def ParseComplexError.at_one (e : ParseComplexError) (loc : Nat) : ParseError :=
  ParseError.new_between (.complex e) loc (loc + 1)
def ParseComplexError.between (e : ParseComplexError) (start finish : Nat) : ParseError :=
  ParseError.new_between (.complex e) start finish

def ParseCharError.atLoc (e : ParseCharError) (loc : Nat) : ParseError :=
  ParseError.new_at (.char e) loc
def ParseCharError.at_one (e : ParseCharError) (loc : Nat) : ParseError :=
  ParseError.new_between (.char e) loc (loc + 1)
def ParseCharError.between (e : ParseCharError) (start finish : Nat) : ParseError :=
  ParseError.new_between (.char e) start finish

def ParseStringError.atLoc (e : ParseStringError) (loc : Nat) : ParseError :=
  ParseError.new_at (.string e) loc
def ParseStringError.at_one (e : ParseStringError) (loc : Nat) : ParseError :=
  ParseError.new_between (.string e) loc (loc + 1)
def ParseStringError.between (e : ParseStringError) (start finish : Nat) : ParseError :=
  ParseError.new_between (.string e) start finish

def ParseNumberError.atLoc (e : ParseNumberError) (loc : Nat) : ParseError :=
  ParseError.new_at (.number e) loc
def ParseNumberError.at_one (e : ParseNumberError) (loc : Nat) : ParseError :=
  ParseError.new_between (.number e) loc (loc + 1)
def ParseNumberError.between (e : ParseNumberError) (start finish : Nat) : ParseError :=
  ParseError.new_between (.number e) start finish

def ParseBitSequenceError.atLoc (e : ParseBitSequenceError) (loc : Nat) : ParseError :=
  ParseError.new_at (.bitSequence e) loc
def ParseBitSequenceError.at_one (e : ParseBitSequenceError) (loc : Nat) : ParseError :=
  ParseError.new_between (.bitSequence e) loc (loc + 1)
def ParseBitSequenceError.between (e : ParseBitSequenceError) (start finish : Nat) : ParseError :=
  ParseError.new_between (.bitSequence e) start finish

/-! ## The token cursor

yap's `StrTokens`: remaining characters plus the byte offset consumed so far.
Backtracking (yap `location`/`set_location`) is value-semantics: callers keep
the old `Toks` and resume from it. -/

structure Toks : Type where
  s : List Char
  off : Nat
  deriving DecidableEq

/-- Total UTF-8 byte length of a character list. -/
def utf8Len : List Char → Nat
  | [] => 0
  | c :: cs => c.utf8Size + utf8Len cs

/-- yap `Tokens::token`: consume `c` if it is next, else leave the cursor
unmoved. -/
def Toks.token (c : Char) (t : Toks) : Bool × Toks :=
  match t.s with
  | c' :: rest => if c' = c then (true, ⟨rest, t.off + c.utf8Size⟩) else (false, t)
  | [] => (false, t)

/-- yap `Tokens::next`: consume and return the next character. -/
def Toks.next (t : Toks) : Option Char × Toks :=
  match t.s with
  | c :: rest => (some c, ⟨rest, t.off + c.utf8Size⟩)
  | [] => (none, t)

/-- yap `Tokens::tokens`: consume the exact sequence `cs`, all or nothing. -/
def Toks.tokens (cs : List Char) (t : Toks) : Bool × Toks :=
  if cs.isPrefixOf t.s then (true, ⟨t.s.drop cs.length, t.off + utf8Len cs⟩)
  else (false, t)

/-- yap `Tokens::skip_tokens_while`: drop the longest prefix satisfying `p`,
returning how many characters were dropped. -/
def skip_tokens_while (p : Char → Bool) (t : Toks) : Nat × Toks :=
  ((t.s.takeWhile p).length, ⟨t.s.dropWhile p, t.off + utf8Len (t.s.takeWhile p)⟩)

/-- yap `Tokens::tokens_while` with a pure predicate: return the consumed
prefix. -/
def tokens_while (p : Char → Bool) (t : Toks) : List Char × Toks :=
  (t.s.takeWhile p, ⟨t.s.dropWhile p, t.off + utf8Len (t.s.takeWhile p)⟩)

/-- `skip_whitespace` from `from_string.rs`. -/
def skip_whitespace (t : Toks) : Toks :=
  (skip_tokens_while Char.isWhitespace t).2

/-- `skip_spaced_separator` from `from_string.rs`. -/
def skip_spaced_separator (c : Char) (t : Toks) : Bool × Toks :=
  let t1 := skip_whitespace t
  let (is_sep, t2) := Toks.token c t1
  let t3 := skip_whitespace t2
  (is_sep, t3)

/-! ## Leaf parsers -/

/-- `parse_bool` from `from_string.rs`: literal `true` or `false`. -/
def parse_bool (t : Toks) : Option Bool × Toks :=
  match Toks.tokens "true".toList t with
  | (true, t') => (some true, t')
  | (false, _) =>
    match Toks.tokens "false".toList t with
    | (true, t') => (some false, t')
    | (false, _) => (none, t)

/-- The shared tail of `parse_char`: expect the closing quote. -/
def parse_char_close (start : Nat) (c : Char) (t : Toks) :
    Except (Option ParseError) Char × Toks :=
  match Toks.token squote t with
  | (true, t') => (.ok c, t')
  | (false, _) =>
    (.error (some ((ParseCharError.expectedClosingQuoteToMatch start).at_one t.off)), t)

/-- `parse_char` from `from_string.rs`. -/
def parse_char (t : Toks) : Except (Option ParseError) Char × Toks :=
  let start := t.off
  match Toks.token squote t with
  | (false, _) => (.error none, t)
  | (true, t1) =>
    match Toks.next t1 with
    | (none, t2) => (.error (some (ParseCharError.expectedValidCharacter.at_one t2.off)), t2)
    | (some c, t2) =>
      if c = bslash then
        match Toks.next t2 with
        | (none, t3) =>
          (.error (some (ParseCharError.expectedValidEscapeCode.at_one t3.off)), t3)
        | (some ec, t3) =>
          match from_escape_code ec with
          | none => (.error (some (ParseCharError.expectedValidEscapeCode.at_one t3.off)), t3)
          | some c' => parse_char_close start c' t3
      else parse_char_close start c t2

/-- The character loop of `parse_string`: `acc` is the unescaped output so
far, `escaped` the `next_is_escaped` flag, and the recursion walks the
remaining characters (each iteration consumes exactly one). -/
def parse_string_loop (start : Nat) (acc : List Char) (escaped : Bool) :
    List Char → Nat → Except (Option ParseError) String × Toks
  | [], off =>
    (.error (some ((ParseStringError.expectedClosingQuoteToMatch start).at_one off)), ⟨[], off⟩)
  | c :: rest, off =>
    let pos := off
    if c = bslash ∧ ¬escaped then
      parse_string_loop start acc true rest (off + c.utf8Size)
    else if escaped then
      match from_escape_code c with
      | some c' => parse_string_loop start (acc ++ [c']) false rest (off + c.utf8Size)
      | none =>
        (.error (some (ParseStringError.expectedValidEscapeCode.between pos (pos + 1))),
          ⟨rest, off + c.utf8Size⟩)
    else if c = dquote then (.ok (String.mk acc), ⟨rest, off + c.utf8Size⟩)
    else parse_string_loop start (acc ++ [c]) false rest (off + c.utf8Size)

/-- `parse_string` from `from_string.rs`. -/
def parse_string (t : Toks) : Except (Option ParseError) String × Toks :=
  let start := t.off
  match Toks.token dquote t with
  | (false, _) => (.error none, t)
  | (true, t1) => parse_string_loop start [] false t1.s t1.off

/-- The stateful `tokens_while` closure of `parse_number`: consume digits,
and `_` once a digit has been seen (`seen_n`); returns the consumed
characters, the remainder, and the final `seen_n` flag. -/
def num_run (seen : Bool) : List Char → List Char × List Char × Bool
  | [] => ([], [], seen)
  | c :: rest =>
    if c.isDigit then
      let (cs, r, s) := num_run true rest
      (c :: cs, r, s)
    else if seen ∧ c = '_' then
      let (cs, r, s) := num_run seen rest
      (c :: cs, r, s)
    else ([], c :: rest, seen)

/-- Numeric value of a digit string, as `u128::from_str`/`i128::from_str`
compute it on the digits part. -/
def digits_to_nat (ds : List Char) : Nat :=
  ds.foldl (fun acc c => acc * 10 + (c.toNat - 48)) 0

/-- `parse_number` from `from_string.rs`.  Overflow of the machine integer
(`u128`/`i128` from_str failure) is the explicit bounds check. -/
def parse_number (t : Toks) : Except (Option ParseError) Primitive × Toks :=
  let start_loc := t.off
  let (plus, tp) := Toks.token '+' t
  let (is_positive, t1) :=
    if plus then (true, tp)
    else
      let (minus, tm) := Toks.token '-' t
      (!minus, tm)
  let (consumed, restL, seen_n) := num_run false t1.s
  let t2 : Toks := ⟨restL, t1.off + utf8Len consumed⟩
  let digits := consumed.filter Char.isDigit
  let end_loc := t2.off
  if end_loc = start_loc then (.error none, t2)
  else if !seen_n then
    (.error (some (ParseNumberError.expectedDigit.between end_loc (end_loc + 1))), t2)
  else if is_positive then
    let n := digits_to_nat digits
    if n < 2 ^ 128 then (.ok (.u128 n), t2)
    else (.error (some (ParseNumberError.parsingFailed.between start_loc end_loc)), t2)
  else
    let n := digits_to_nat digits
    if n ≤ 2 ^ 127 then (.ok (.i128 (-(n : Int))), t2)
    else (.error (some (ParseNumberError.parsingFailed.between start_loc end_loc)), t2)

/-- `parse_ident` from `from_string.rs`: one or more alphabetic characters,
then alphanumerics/underscores; the result is the consumed slice. -/
def parse_ident (t : Toks) : Except ParseError String × Toks :=
  let start := t
  let (n, t1) := skip_tokens_while Char.isAlpha t
  if n = 0 then
    (.error (ParseComplexError.invalidStartingCharacterInIdent.at_one start.off), t1)
  else
    let (_, t2) := skip_tokens_while (fun c => c.isAlphanum || c = '_') t1
    (.ok (String.mk (start.s.take (start.s.length - t2.s.length))), t2)

/-- `parse_field_name` from `from_string.rs`: a string literal, else an
ident (the second `one_of` arm always matches, so the `InvalidFieldName`
fallback of the source is unreachable). -/
def parse_field_name (t : Toks) : Except ParseError String × Toks :=
  match parse_string t with
  | (.ok s, t') => (.ok s, t')
  | (.error (some e), t') => (.error e, t')
  | (.error none, _) =>
    match parse_ident t with
    | (.ok s, t') => (.ok s, t')
    | (.error e, t') => (.error e, t')

/-- The inner `parse_i_string` of `parse_optional_variant_ident`: `v`
immediately followed by a string literal (hard string errors discarded by
`.ok()`). -/
def parse_i_string (t : Toks) : Option String × Toks :=
  match Toks.next t with
  | (none, t') => (none, t')
  | (some c, t1) =>
    if c = 'v' then
      match parse_string t1 with
      | (.ok s, t2) => (some s, t2)
      | (.error _, t2) => (none, t2)
    else (none, t1)

/-- `parse_optional_variant_ident` from `from_string.rs` (the `one_of`
resets the cursor whenever an arm yields `none`). -/
def parse_optional_variant_ident (t : Toks) : Option String × Toks :=
  match parse_i_string t with
  | (some s, t') => (some s, t')
  | (none, _) =>
    match parse_ident t with
    | (.ok s, t') => (some s, t')
    | (.error _, _) => (none, t)

/-- `parse_bit_sequence` from `from_string.rs`. -/
def parse_bit_sequence (t : Toks) : Except (Option ParseError) (List Bool) × Toks :=
  let start := t.off
  match Toks.token '<' t with
  | (false, _) => (.error none, t)
  | (true, t1) =>
    let (bits, t2) := tokens_while (fun c => c = '0' || c = '1') t1
    let seq := bits.map (fun c => c == '1')
    match Toks.token '>' t2 with
    | (true, t3) => (.ok seq, t3)
    | (false, _) =>
      (.error (some ((ParseBitSequenceError.expectedClosingBracketToMatch start).between
        t2.off (t2.off + 1))), t2)

/-! ## Combinators (yap `one_of` / `sep_by_err`) -/

/-- yap's `one_of` over `Option`-wrapped results (the `transpose_err`
pattern of the source): run the alternatives in order from the same starting
cursor; commit to the first whose result is not "no-match", resetting the
cursor before each later attempt. -/
def one_of {α : Type} : List (Toks → Except (Option ParseError) α × Toks) → Toks →
    Option (Except ParseError α) × Toks
  | [], t => (none, t)
  | p :: ps, t =>
    match p t with
    | (.ok a, t') => (some (.ok a), t')
    | (.error (some e), t') => (some (.error e), t')
    | (.error none, _) => one_of ps t

/-- yap's `sep_by_err` + `collect::<Result<_,_>>()`: parse an item, then
repeatedly a separator and an item; a failed separator resets the cursor to
just after the last item and ends the sequence; the first item error ends the
collection with that error.  `budget` bounds the iteration count; callers
pass `remaining-length + 1`, which always suffices because a matched
separator consumes at least one character. -/
def sep_by_err {α : Type} (item : Toks → Except ParseError α × Toks)
    (sep : Toks → Bool × Toks) : Nat → Toks → Except ParseError (List α) × Toks
  | 0, t => (.ok [], t)
  | budget + 1, t =>
    match item t with
    | (.error e, t') => (.error e, t')
    | (.ok a, t') =>
      match sep t' with
      | (false, _) => (.ok [a], t')
      | (true, t'') =>
        match sep_by_err item sep budget t'' with
        | (.ok rest, t3) => (.ok (a :: rest), t3)
        | (.error e, t3) => (.error e, t3)

/-! ## Compound parsers

The source's `parse_named_composite`/`parse_unnamed_composite`/`parse_variant`
/`parse_field_name_and_value` recurse through `parse_value`; here each takes
the sub-parser it recurses through as an argument, and `parse_value` ties the
knot with one unit of fuel per value-nesting level. -/

/-- `parse_field_name_and_value` from `from_string.rs`, over a given value
sub-parser. -/
def parse_field_name_and_value
    (pv : Toks → Except ParseError (Value Unit) × Toks) (t : Toks) :
    Except ParseError (String × Value Unit) × Toks :=
  match parse_field_name t with
  | (.error e, t') => (.error e, t')
  | (.ok name, t1) =>
    match skip_spaced_separator ':' t1 with
    | (false, t2) =>
      (.error ((ParseComplexError.missingFieldSeparator ':').at_one t2.off), t2)
    | (true, t2) =>
      match pv t2 with
      | (.error e, t3) => (.error e, t3)
      | (.ok v, t3) => (.ok (name, v), t3)

/-- `parse_named_composite` from `from_string.rs`, over a given field
sub-parser. -/
def parse_named_composite
    (pf : Toks → Except ParseError (String × Value Unit) × Toks) (t : Toks) :
    Except (Option ParseError) (Composite Unit) × Toks :=
  let start := t.off
  match Toks.token lbrace t with
  | (false, _) => (.error none, t)
  | (true, t1) =>
    let t2 := skip_whitespace t1
    match Toks.token rbrace t2 with
    | (true, t3) => (.ok (.named []), t3)
    | (false, _) =>
      match sep_by_err pf (fun t => skip_spaced_separator ',' t) (t2.s.length + 1) t2 with
      | (.error e, t3) => (.error (some e), t3)
      | (.ok vals, t3) =>
        let t4 := skip_whitespace t3
        match Toks.token rbrace t4 with
        | (true, t5) => (.ok (.named vals), t5)
        | (false, _) =>
          (.error (some ((ParseComplexError.expectedCloserToMatch rbrace start).at_one t4.off)),
            t4)

/-- `parse_unnamed_composite` from `from_string.rs`, over a given value
sub-parser. -/
def parse_unnamed_composite
    (pv : Toks → Except ParseError (Value Unit) × Toks) (t : Toks) :
    Except (Option ParseError) (Composite Unit) × Toks :=
  let start := t.off
  match Toks.token '(' t with
  | (false, _) => (.error none, t)
  | (true, t1) =>
    let t2 := skip_whitespace t1
    match Toks.token ')' t2 with
    | (true, t3) => (.ok (.unnamed []), t3)
    | (false, _) =>
      match sep_by_err pv (fun t => skip_spaced_separator ',' t) (t2.s.length + 1) t2 with
      | (.error e, t3) => (.error (some e), t3)
      | (.ok vals, t3) =>
        let t4 := skip_whitespace t3
        match Toks.token ')' t4 with
        | (true, t5) => (.ok (.unnamed vals), t5)
        | (false, _) =>
          (.error (some ((ParseComplexError.expectedCloserToMatch ')' start).at_one t4.off)),
            t4)

/-- `parse_variant` from `from_string.rs`, over the two composite
sub-parsers.  The result is the flattened `Variant` (name, values). -/
def parse_variant
    (pnc puc : Toks → Except (Option ParseError) (Composite Unit) × Toks) (t : Toks) :
    Except (Option ParseError) (String × Composite Unit) × Toks :=
  match parse_optional_variant_ident t with
  | (none, _) => (.error none, t)
  | (some ident, t1) =>
    let t2 := skip_whitespace t1
    match one_of [pnc, puc] t2 with
    | (some (.ok values), t3) => (.ok (ident, values), t3)
    | (some (.error e), t3) => (.error (some e), t3)
    | (none, t3) => (.error none, t3)

/- The eight `one_of` arms of `parse_value`, each the source's
`transpose_err(parse_x(t).map(...))` expression. -/

def arm_bool (t : Toks) : Except (Option ParseError) (Value Unit) × Toks :=
  match parse_bool t with
  | (some b, t') => (.ok (Value.bool b), t')
  | (none, t') => (.error none, t')

def arm_char (t : Toks) : Except (Option ParseError) (Value Unit) × Toks :=
  match parse_char t with
  | (.ok c, t') => (.ok (Value.char c), t')
  | (.error e, t') => (.error e, t')

def arm_string (t : Toks) : Except (Option ParseError) (Value Unit) × Toks :=
  match parse_string t with
  | (.ok s, t') => (.ok (Value.string s), t')
  | (.error e, t') => (.error e, t')

def arm_number (t : Toks) : Except (Option ParseError) (Value Unit) × Toks :=
  match parse_number t with
  | (.ok p, t') => (.ok (Value.primitive p), t')
  | (.error e, t') => (.error e, t')

def arm_named (pv : Toks → Except ParseError (Value Unit) × Toks) (t : Toks) :
    Except (Option ParseError) (Value Unit) × Toks :=
  match parse_named_composite (parse_field_name_and_value pv) t with
  | (.ok c, t') => (.ok (Value.mk (.composite c) ()), t')
  | (.error e, t') => (.error e, t')

def arm_unnamed (pv : Toks → Except ParseError (Value Unit) × Toks) (t : Toks) :
    Except (Option ParseError) (Value Unit) × Toks :=
  match parse_unnamed_composite pv t with
  | (.ok c, t') => (.ok (Value.mk (.composite c) ()), t')
  | (.error e, t') => (.error e, t')

def arm_bitseq (t : Toks) : Except (Option ParseError) (Value Unit) × Toks :=
  match parse_bit_sequence t with
  | (.ok bits, t') => (.ok (Value.bit_sequence bits), t')
  | (.error e, t') => (.error e, t')

def arm_variant (pv : Toks → Except ParseError (Value Unit) × Toks) (t : Toks) :
    Except (Option ParseError) (Value Unit) × Toks :=
  match parse_variant (parse_named_composite (parse_field_name_and_value pv))
      (parse_unnamed_composite pv) t with
  | (.ok nv, t') => (.ok (Value.mk (.variant nv.1 nv.2) ()), t')
  | (.error e, t') => (.error e, t')

/-- The ordered alternative list of `parse_value`, over a given value
sub-parser for the recursive positions: bool, char, string, number, named
composite, unnamed composite, bit sequence, variant — exactly the source's
`one_of` order, with the same result mappings. -/
def value_alternatives (pv : Toks → Except ParseError (Value Unit) × Toks) :
    List (Toks → Except (Option ParseError) (Value Unit) × Toks) :=
  [arm_bool, arm_char, arm_string, arm_number,
    arm_named pv, arm_unnamed pv, arm_bitseq, arm_variant pv]

/-- `parse_value` from `from_string.rs`: try the alternatives in order; if
none matches, fail with `ExpectedValue` at the current offset.  `fuel`
bounds the value-nesting depth (each recursive value position runs with one
unit less); `from_str` passes `length + 1`, which always suffices because
every nesting level consumes at least one character before recursing. -/
def parse_value : Nat → Toks → Except ParseError (Value Unit) × Toks
  | 0, t => (.error (ParseError.new_at .expectedValue t.off), t)
  | fuel + 1, t =>
    match one_of (value_alternatives (parse_value fuel)) t with
    | (some r, t') => (r, t')
    | (none, t') => (.error (ParseError.new_at .expectedValue t'.off), t')

/-- `from_str` from `from_string.rs`: parse one value, returning the result
and the unconsumed remainder of the input. -/
def from_str (s : String) : Except ParseError (Value Unit) × String :=
  match parse_value (s.toList.length + 1) ⟨s.toList, 0⟩ with
  | (res, t) => (res, String.mk t.s)

/-! ## Depth and round-trip predicates -/

mutual
/-- The value-nesting depth: the fuel needed by `parse_value` to reach the
leaves (one unit per value position). -/
def depth_value {T : Type} : Value T → Nat
  | .mk d _ => 1 + depth_def d

def depth_def {T : Type} : ValueDef T → Nat
  | .composite c => depth_composite c
  | .variant _ values => depth_composite values
  | .bitSequence _ => 0
  | .primitive _ => 0

def depth_composite {T : Type} : Composite T → Nat
  | .named fields => depth_fields fields
  | .unnamed vals => depth_vals vals

def depth_fields {T : Type} : List (String × Value T) → Nat
  | [] => 0
  | (_, v) :: rest => max (depth_value v) (depth_fields rest)

def depth_vals {T : Type} : List (Value T) → Nat
  | [] => 0
  | v :: rest => max (depth_value v) (depth_vals rest)
end

/-- Primitives whose formatted text parses back to the same primitive: the
256-bit kinds do not format at all; a `U128` must fit its machine width; an
`I128` must be negative (a non-negative `I128` formats without a sign and
parses back as `U128`) and fit its machine width. -/
def prim_rt_ok : Primitive → Bool
  | .bool _ => true
  | .char _ => true
  | .string _ => true
  | .u128 n => decide (n < 2 ^ 128)
  | .i128 n => decide (n < 0 ∧ -(2 ^ 127 : Int) ≤ n)
  | .u256 _ => false
  | .i256 _ => false

mutual
/-- Values whose formatted text parses back to the same value (context
erased): primitives per `prim_rt_ok`, and every variant name and field name
nonempty (`is_ident` accepts the empty string, so an empty name is written
unquoted and cannot be parsed back). -/
def rt_ok_value {T : Type} : Value T → Bool
  | .mk d _ => rt_ok_def d

def rt_ok_def {T : Type} : ValueDef T → Bool
  | .composite c => rt_ok_composite c
  | .variant name values => !name.isEmpty && rt_ok_composite values
  | .bitSequence _ => true
  | .primitive p => prim_rt_ok p

def rt_ok_composite {T : Type} : Composite T → Bool
  | .named fields => rt_ok_fields fields
  | .unnamed vals => rt_ok_vals vals

def rt_ok_fields {T : Type} : List (String × Value T) → Bool
  | [] => true
  | (n, v) :: rest => !n.isEmpty && rt_ok_value v && rt_ok_fields rest

def rt_ok_vals {T : Type} : List (Value T) → Bool
  | [] => true
  | v :: rest => rt_ok_value v && rt_ok_vals rest
end

/-- The continuation restriction for number round-trips: text following a
formatted value must not begin with a digit or `_` (in formatter output a
value is only ever followed by `,`, a space, a closing delimiter, or end of
input). -/
def num_boundary : List Char → Bool
  | [] => true
  | c :: _ => !(c.isDigit || c == '_')

/-- The spec's identifier predicate (glossary and §4.3): an alphabetic first
character followed by alphanumerics/underscores.  Stated from the spec's
words, for comparison with the code's `is_ident`. -/
def spec_is_ident (s : String) : Bool :=
  match s.toList with
  | [] => false
  | c :: rest => c.isAlpha && rest.all (fun c => c.isAlphanum || c = '_')

/-- The claim's alternative-selection rule, written from the spec's words
(§4.2): try the alternatives in order, each from the same saved position;
commit to the first that does not report no-match (whether success or hard
error); if every alternative reports no-match, fail with "expected a value"
anchored at the current offset with no end offset. -/
def dispatch_alternatives
    (alts : List (Toks → Except (Option ParseError) (Value Unit) × Toks)) (t : Toks) :
    Except ParseError (Value Unit) × Toks :=
  match alts with
  | [] => (.error (ParseError.new_at .expectedValue t.off), t)
  | p :: ps =>
    match p t with
    | (.error none, _) => dispatch_alternatives ps t
    | (.error (some e), t') => (.error e, t')
    | (.ok v, t') => (.ok v, t')

/-- Head test used by the positioned-error lemmas: the list is empty or does
not begin with `x`. -/
def head_not (x : Char) : List Char → Bool
  | [] => true
  | c :: _ => !(c == x)

/-- Head test: the list is empty or does not begin with a decimal digit. -/
def head_not_digit : List Char → Bool
  | [] => true
  | c :: _ => !c.isDigit

/-- Head test: the list is empty or its head fails `p`. -/
def head_not_sat (p : Char → Bool) : List Char → Bool
  | [] => true
  | c :: _ => !p c

/-- The round-trip statement at a given fuel: parsing the formatted text of a
round-trippable value of depth at most `fuel`, followed by any continuation
that does not extend a digit run, yields the value with its context erased
and consumes exactly the formatted text. -/
def RTV (fuel : Nat) : Prop :=
  ∀ (T : Type) (v : Value T) (out rest : List Char) (off : Nat),
    rt_ok_value v = true → fmt_value v = some out → depth_value v ≤ fuel →
    num_boundary rest = true →
    parse_value fuel ⟨out ++ rest, off⟩ =
      (.ok (remove_context v), ⟨rest, off + utf8Len out⟩)

/-! ## A mutual induction principle for the value model -/

section ValueInduction

variable {T : Type}
variable (PV : Value T → Prop) (PD : ValueDef T → Prop) (PC : Composite T → Prop)
variable (PFs : List (String × Value T) → Prop) (PVs : List (Value T) → Prop)
variable (hmk : ∀ d ctx, PD d → PV (.mk d ctx))
variable (hcomp : ∀ c, PC c → PD (.composite c))
variable (hvar : ∀ name c, PC c → PD (.variant name c))
variable (hbits : ∀ bs, PD (.bitSequence bs))
variable (hprim : ∀ p, PD (.primitive p))
variable (hnamed : ∀ fs, PFs fs → PC (.named fs))
variable (hunnamed : ∀ vs, PVs vs → PC (.unnamed vs))
variable (hfnil : PFs [])
variable (hfcons : ∀ n v rest, PV v → PFs rest → PFs ((n, v) :: rest))
variable (hvnil : PVs [])
variable (hvcons : ∀ v rest, PV v → PVs rest → PVs (v :: rest))

mutual
def value_ind_v : ∀ v : Value T, PV v
  | .mk d ctx => hmk d ctx (value_ind_d d)

def value_ind_d : ∀ d : ValueDef T, PD d
  | .composite c => hcomp c (value_ind_c c)
  | .variant name c => hvar name c (value_ind_c c)
  | .bitSequence bs => hbits bs
  | .primitive p => hprim p

def value_ind_c : ∀ c : Composite T, PC c
  | .named fs => hnamed fs (value_ind_fs fs)
  | .unnamed vs => hunnamed vs (value_ind_vs vs)

def value_ind_fs : ∀ fs : List (String × Value T), PFs fs
  | [] => hfnil
  | (n, v) :: rest => hfcons n v rest (value_ind_v v) (value_ind_fs rest)

def value_ind_vs : ∀ vs : List (Value T), PVs vs
  | [] => hvnil
  | v :: rest => hvcons v rest (value_ind_v v) (value_ind_vs rest)
end

end ValueInduction

/-! ## Basic lemmas: byte lengths and cursor operations -/

theorem utf8Len_nil : utf8Len [] = 0 := rfl

theorem utf8Len_cons (c : Char) (cs : List Char) :
    utf8Len (c :: cs) = c.utf8Size + utf8Len cs := rfl

theorem utf8Len_append (a b : List Char) : utf8Len (a ++ b) = utf8Len a + utf8Len b := by
  induction a with
  | nil => simp [utf8Len]
  | cons c cs ih => simp [utf8Len, ih]; omega

theorem utf8Size_pos (c : Char) : 0 < c.utf8Size := Char.utf8Size_pos c

theorem token_cons_self (c : Char) (rest : List Char) (off : Nat) :
    Toks.token c ⟨c :: rest, off⟩ = (true, ⟨rest, off + c.utf8Size⟩) := by
  simp [Toks.token]

theorem token_cons_ne {c c' : Char} (h : c' ≠ c) (rest : List Char) (off : Nat) :
    Toks.token c ⟨c' :: rest, off⟩ = (false, ⟨c' :: rest, off⟩) := by
  simp [Toks.token, h]

theorem token_nil (c : Char) (off : Nat) :
    Toks.token c ⟨[], off⟩ = (false, ⟨[], off⟩) := rfl

theorem tokens_whole (cs rest : List Char) (off : Nat) :
    Toks.tokens cs ⟨cs ++ rest, off⟩ = (true, ⟨rest, off + utf8Len cs⟩) := by
  have hp : cs.isPrefixOf (cs ++ rest) := by
    simp [List.isPrefixOf_iff_prefix]
  simp [Toks.tokens, hp]

theorem tokens_head_ne {c c' : Char} (h : c' ≠ c) (cs rest : List Char) (off : Nat) :
    Toks.tokens (c :: cs) ⟨c' :: rest, off⟩ = (false, ⟨c' :: rest, off⟩) := by
  have hp : (c :: cs).isPrefixOf (c' :: rest) = false := by
    simp [List.isPrefixOf_cons₂]
    intro hc
    exact absurd hc.symm h
  simp [Toks.tokens, hp]

theorem tokens_nil_input (c : Char) (cs : List Char) (off : Nat) :
    Toks.tokens (c :: cs) ⟨[], off⟩ = (false, ⟨[], off⟩) := rfl

theorem skip_whitespace_nil (off : Nat) : skip_whitespace ⟨[], off⟩ = ⟨[], off⟩ := rfl

theorem skip_whitespace_not_ws {c : Char} (h : c.isWhitespace = false)
    (rest : List Char) (off : Nat) :
    skip_whitespace ⟨c :: rest, off⟩ = ⟨c :: rest, off⟩ := by
  simp [skip_whitespace, skip_tokens_while, List.takeWhile_cons, List.dropWhile_cons, h, utf8Len]

theorem skip_whitespace_ws {c : Char} (h : c.isWhitespace = true)
    (rest : List Char) (off : Nat) :
    skip_whitespace ⟨c :: rest, off⟩ = skip_whitespace ⟨rest, off + c.utf8Size⟩ := by
  simp [skip_whitespace, skip_tokens_while, List.takeWhile_cons, List.dropWhile_cons, h,
    utf8Len_cons]
  omega

/-! ## Basic lemmas: `one_of` stepping -/

theorem one_of_nil {α : Type} (t : Toks) :
    one_of (α := α) [] t = (none, t) := rfl

theorem one_of_cons_nomatch {α : Type}
    {p : Toks → Except (Option ParseError) α × Toks}
    {ps : List (Toks → Except (Option ParseError) α × Toks)} {t t' : Toks}
    (h : p t = (.error none, t')) :
    one_of (p :: ps) t = one_of ps t := by
  simp [one_of, h]

theorem one_of_cons_ok {α : Type}
    {p : Toks → Except (Option ParseError) α × Toks}
    {ps : List (Toks → Except (Option ParseError) α × Toks)} {t t' : Toks} {a : α}
    (h : p t = (.ok a, t')) :
    one_of (p :: ps) t = (some (.ok a), t') := by
  simp [one_of, h]

theorem one_of_cons_err {α : Type}
    {p : Toks → Except (Option ParseError) α × Toks}
    {ps : List (Toks → Except (Option ParseError) α × Toks)} {t t' : Toks} {e : ParseError}
    (h : p t = (.error (some e), t')) :
    one_of (p :: ps) t = (some (.error e), t') := by
  simp [one_of, h]

theorem parse_value_succ (fuel : Nat) (t : Toks) :
    parse_value (fuel + 1) t =
      match one_of (value_alternatives (parse_value fuel)) t with
      | (some r, t') => (r, t')
      | (none, t') => (.error (ParseError.new_at .expectedValue t'.off), t') := rfl

/-! ## No-match lemmas: each leaf rule rejects a foreign leading character
without consuming anything -/

theorem parse_bool_nomatch {c : Char} (h1 : c ≠ 't') (h2 : c ≠ 'f')
    (rest : List Char) (off : Nat) :
    parse_bool ⟨c :: rest, off⟩ = (none, ⟨c :: rest, off⟩) := by
  have e1 : "true".toList = 't' :: "rue".toList := rfl
  have e2 : "false".toList = 'f' :: "alse".toList := rfl
  rw [parse_bool, e1, e2, tokens_head_ne h1, tokens_head_ne h2]

theorem arm_bool_nomatch {c : Char} (h1 : c ≠ 't') (h2 : c ≠ 'f')
    (rest : List Char) (off : Nat) :
    arm_bool ⟨c :: rest, off⟩ = (.error none, ⟨c :: rest, off⟩) := by
  rw [arm_bool, parse_bool_nomatch h1 h2]

theorem parse_char_nomatch {c : Char} (h : c ≠ squote) (rest : List Char) (off : Nat) :
    parse_char ⟨c :: rest, off⟩ = (.error none, ⟨c :: rest, off⟩) := by
  rw [parse_char]
  rw [token_cons_ne h]

theorem arm_char_nomatch {c : Char} (h : c ≠ squote) (rest : List Char) (off : Nat) :
    arm_char ⟨c :: rest, off⟩ = (.error none, ⟨c :: rest, off⟩) := by
  rw [arm_char, parse_char_nomatch h]

theorem parse_string_nomatch {c : Char} (h : c ≠ dquote) (rest : List Char) (off : Nat) :
    parse_string ⟨c :: rest, off⟩ = (.error none, ⟨c :: rest, off⟩) := by
  rw [parse_string]
  rw [token_cons_ne h]

theorem arm_string_nomatch {c : Char} (h : c ≠ dquote) (rest : List Char) (off : Nat) :
    arm_string ⟨c :: rest, off⟩ = (.error none, ⟨c :: rest, off⟩) := by
  rw [arm_string, parse_string_nomatch h]

theorem num_run_stop {c : Char} (hd : c.isDigit = false) (hu : c ≠ '_')
    (rest : List Char) (seen : Bool) :
    num_run seen (c :: rest) = ([], c :: rest, seen) := by
  simp [num_run, hd, hu]

theorem num_run_stop_unseen {c : Char} (hd : c.isDigit = false) (rest : List Char) :
    num_run false (c :: rest) = ([], c :: rest, false) := by
  simp [num_run, hd]

theorem parse_number_nomatch {c : Char} (h1 : c ≠ '+') (h2 : c ≠ '-')
    (h3 : c.isDigit = false) (rest : List Char) (off : Nat) :
    parse_number ⟨c :: rest, off⟩ = (.error none, ⟨c :: rest, off⟩) := by
  rw [parse_number]
  rw [token_cons_ne h1, token_cons_ne h2]
  simp [num_run_stop_unseen h3, utf8Len]

theorem arm_number_nomatch {c : Char} (h1 : c ≠ '+') (h2 : c ≠ '-')
    (h3 : c.isDigit = false) (rest : List Char) (off : Nat) :
    arm_number ⟨c :: rest, off⟩ = (.error none, ⟨c :: rest, off⟩) := by
  rw [arm_number, parse_number_nomatch h1 h2 h3]

theorem parse_named_composite_nomatch {c : Char} (h : c ≠ lbrace)
    (pf : Toks → Except ParseError (String × Value Unit) × Toks)
    (rest : List Char) (off : Nat) :
    parse_named_composite pf ⟨c :: rest, off⟩ = (.error none, ⟨c :: rest, off⟩) := by
  rw [parse_named_composite]
  rw [token_cons_ne h]

theorem arm_named_nomatch {c : Char} (h : c ≠ lbrace)
    (pv : Toks → Except ParseError (Value Unit) × Toks) (rest : List Char) (off : Nat) :
    arm_named pv ⟨c :: rest, off⟩ = (.error none, ⟨c :: rest, off⟩) := by
  rw [arm_named, parse_named_composite_nomatch h]

theorem parse_unnamed_composite_nomatch {c : Char} (h : c ≠ '(')
    (pv : Toks → Except ParseError (Value Unit) × Toks) (rest : List Char) (off : Nat) :
    parse_unnamed_composite pv ⟨c :: rest, off⟩ = (.error none, ⟨c :: rest, off⟩) := by
  rw [parse_unnamed_composite]
  rw [token_cons_ne h]

theorem arm_unnamed_nomatch {c : Char} (h : c ≠ '(')
    (pv : Toks → Except ParseError (Value Unit) × Toks) (rest : List Char) (off : Nat) :
    arm_unnamed pv ⟨c :: rest, off⟩ = (.error none, ⟨c :: rest, off⟩) := by
  rw [arm_unnamed, parse_unnamed_composite_nomatch h]

theorem parse_bit_sequence_nomatch {c : Char} (h : c ≠ '<') (rest : List Char) (off : Nat) :
    parse_bit_sequence ⟨c :: rest, off⟩ = (.error none, ⟨c :: rest, off⟩) := by
  rw [parse_bit_sequence]
  rw [token_cons_ne h]

theorem arm_bitseq_nomatch {c : Char} (h : c ≠ '<') (rest : List Char) (off : Nat) :
    arm_bitseq ⟨c :: rest, off⟩ = (.error none, ⟨c :: rest, off⟩) := by
  rw [arm_bitseq, parse_bit_sequence_nomatch h]

theorem parse_ident_fail {c : Char} (h : c.isAlpha = false) (rest : List Char) (off : Nat) :
    parse_ident ⟨c :: rest, off⟩ =
      (.error (ParseComplexError.invalidStartingCharacterInIdent.at_one off),
        ⟨c :: rest, off⟩) := by
  simp [parse_ident, skip_tokens_while, List.takeWhile_cons, List.dropWhile_cons, h, utf8Len]

theorem parse_optional_variant_ident_nomatch {c : Char} (h1 : c ≠ 'v')
    (h2 : c.isAlpha = false) (rest : List Char) (off : Nat) :
    parse_optional_variant_ident ⟨c :: rest, off⟩ = (none, ⟨c :: rest, off⟩) := by
  rw [parse_optional_variant_ident]
  rw [show parse_i_string ⟨c :: rest, off⟩ = (none, ⟨rest, off + c.utf8Size⟩) by
    simp [parse_i_string, Toks.next, h1]]
  rw [parse_ident_fail h2]

theorem parse_variant_nomatch {c : Char} (h1 : c ≠ 'v') (h2 : c.isAlpha = false)
    (pnc puc : Toks → Except (Option ParseError) (Composite Unit) × Toks)
    (rest : List Char) (off : Nat) :
    parse_variant pnc puc ⟨c :: rest, off⟩ = (.error none, ⟨c :: rest, off⟩) := by
  rw [parse_variant, parse_optional_variant_ident_nomatch h1 h2]

theorem arm_variant_nomatch {c : Char} (h1 : c ≠ 'v') (h2 : c.isAlpha = false)
    (pv : Toks → Except ParseError (Value Unit) × Toks) (rest : List Char) (off : Nat) :
    arm_variant pv ⟨c :: rest, off⟩ = (.error none, ⟨c :: rest, off⟩) := by
  rw [arm_variant, parse_variant_nomatch h1 h2]

/-- When the leading character belongs to no rule, every alternative is a
no-match and the value position fails with `ExpectedValue` at the current
offset, nothing consumed. -/
theorem parse_value_head_reject (fuel : Nat) {c : Char} (rest : List Char) (off : Nat)
    (h1 : c ≠ 't') (h2 : c ≠ 'f') (h3 : c ≠ squote) (h4 : c ≠ dquote)
    (h5 : c ≠ '+') (h6 : c ≠ '-') (h7 : c.isDigit = false)
    (h8 : c ≠ lbrace) (h9 : c ≠ '(') (h10 : c ≠ '<')
    (h11 : c ≠ 'v') (h12 : c.isAlpha = false) :
    parse_value (fuel + 1) ⟨c :: rest, off⟩ =
      (.error (ParseError.new_at .expectedValue off), ⟨c :: rest, off⟩) := by
  rw [parse_value_succ, value_alternatives]
  rw [one_of_cons_nomatch (arm_bool_nomatch h1 h2 rest off),
    one_of_cons_nomatch (arm_char_nomatch h3 rest off),
    one_of_cons_nomatch (arm_string_nomatch h4 rest off),
    one_of_cons_nomatch (arm_number_nomatch h5 h6 h7 rest off),
    one_of_cons_nomatch (arm_named_nomatch h8 _ rest off),
    one_of_cons_nomatch (arm_unnamed_nomatch h9 _ rest off),
    one_of_cons_nomatch (arm_bitseq_nomatch h10 rest off),
    one_of_cons_nomatch (arm_variant_nomatch h11 h12 _ rest off),
    one_of_nil]

/-- Lean's (ASCII) whitespace predicate enumerated. -/
theorem whitespace_cases {c : Char} (h : c.isWhitespace = true) :
    c = ' ' ∨ c = tabChar ∨ c = crChar ∨ c = nlChar := by
  simp [Char.isWhitespace] at h
  rcases h with ((h | h) | h) | h <;> subst h <;> decide

/-- `parse_number` after a consumed sign with no digit following: the hard
`ExpectedDigit` error spans exactly one character starting one past the
sign. -/
theorem parse_number_sign_no_digit (sign : Char) (hs : sign = '+' ∨ sign = '-')
    (rest : List Char) (hd : head_not_digit rest = true) (off : Nat) :
    parse_number ⟨sign :: rest, off⟩ =
      (.error (some (ParseNumberError.expectedDigit.between (off + 1) (off + 2))),
        ⟨rest, off + 1⟩) := by
  have hrun : num_run false rest = ([], rest, false) := by
    cases rest with
    | nil => rfl
    | cons c cs =>
      simp [head_not_digit] at hd
      exact num_run_stop_unseen hd cs
  rcases hs with rfl | rfl
  · rw [parse_number, token_cons_self]
    simp [hrun, utf8Len_nil, ParseNumberError.between, ParseError.new_between,
      show Char.utf8Size '+' = 1 from rfl, show ¬(off + 1 = off) by omega]
  · rw [parse_number]
    rw [token_cons_ne (by decide), token_cons_self]
    simp [hrun, utf8Len_nil, ParseNumberError.between, ParseError.new_between,
      show Char.utf8Size '-' = 1 from rfl, show ¬(off + 1 = off) by omega]

theorem parse_char_missing_close (c : Char) (hc : c ≠ bslash) (rest : List Char)
    (hr : head_not squote rest = true) (off : Nat) :
    parse_char ⟨squote :: c :: rest, off⟩ =
      (.error (some ((ParseCharError.expectedClosingQuoteToMatch off).at_one
        (off + 1 + c.utf8Size))), ⟨rest, off + 1 + c.utf8Size⟩) := by
  rw [parse_char, token_cons_self]
  simp only [Toks.next, if_neg hc, parse_char_close]
  have hq : squote.utf8Size = 1 := rfl
  cases rest with
  | nil => simp [token_nil, hq]
  | cons r rs =>
    simp [head_not] at hr
    rw [token_cons_ne hr]
    simp [hq]

/-- A failing head test means `token` consumes nothing. -/
theorem token_head_not {c : Char} {t : Toks} (h : head_not c t.s = true) :
    Toks.token c t = (false, t) := by
  rcases t with ⟨s, off⟩
  cases s with
  | nil => rfl
  | cons x xs =>
    simp [head_not] at h
    exact token_cons_ne h xs off

/-- `takeWhile` consumes exactly an all-satisfying prefix up to a failing
boundary. -/
theorem takeWhile_split (p : Char → Bool) (xs ys : List Char)
    (hx : ∀ x ∈ xs, p x = true) (hy : head_not_sat p ys = true) :
    List.takeWhile p (xs ++ ys) = xs := by
  induction xs with
  | nil =>
    cases ys with
    | nil => rfl
    | cons y ys' =>
      simp [head_not_sat] at hy
      simp [List.takeWhile_cons, hy]
  | cons x xs' ih =>
    have hpx : p x = true := hx x (by simp)
    have hx' : ∀ a ∈ xs', p a = true := fun a ha => hx a (by simp [ha])
    simp [List.takeWhile_cons, hpx, ih hx']

/-- `dropWhile` drops exactly an all-satisfying prefix up to a failing
boundary. -/
theorem dropWhile_split (p : Char → Bool) (xs ys : List Char)
    (hx : ∀ x ∈ xs, p x = true) (hy : head_not_sat p ys = true) :
    List.dropWhile p (xs ++ ys) = ys := by
  induction xs with
  | nil =>
    cases ys with
    | nil => rfl
    | cons y ys' =>
      simp [head_not_sat] at hy
      simp [List.dropWhile_cons, hy]
  | cons x xs' ih =>
    have hpx : p x = true := hx x (by simp)
    have hx' : ∀ a ∈ xs', p a = true := fun a ha => hx a (by simp [ha])
    simp [List.dropWhile_cons, hpx, ih hx']

/-- `tokens_while` splits around a boundary: it consumes exactly the prefix
whose characters all satisfy `p` when the continuation starts with a
character that does not. -/
theorem tokens_while_split (p : Char → Bool) (xs ys : List Char) (off : Nat)
    (hx : ∀ x ∈ xs, p x = true)
    (hy : head_not_sat p ys = true) :
    tokens_while p ⟨xs ++ ys, off⟩ = (xs, ⟨ys, off + utf8Len xs⟩) := by
  simp [tokens_while, takeWhile_split p xs ys hx hy, dropWhile_split p xs ys hx hy]

/-- `skip_tokens_while` splits the same way. -/
theorem skip_tokens_while_split (p : Char → Bool) (xs ys : List Char) (off : Nat)
    (hx : ∀ x ∈ xs, p x = true)
    (hy : head_not_sat p ys = true) :
    skip_tokens_while p ⟨xs ++ ys, off⟩ = (xs.length, ⟨ys, off + utf8Len xs⟩) := by
  simp [skip_tokens_while, takeWhile_split p xs ys hx hy, dropWhile_split p xs ys hx hy]

/-- The missing-`>` hard error of `parse_bit_sequence`: anchored one past the
consumed bits (one character wide), with the opening `<` offset in the
payload. -/
theorem parse_bit_sequence_missing_close (bits rest : List Char) (off : Nat)
    (hb : ∀ b ∈ bits, b = '0' ∨ b = '1')
    (hr0 : head_not_sat (fun c => c = '0' || c = '1') rest = true)
    (hrg : head_not '>' rest = true) :
    parse_bit_sequence ⟨'<' :: (bits ++ rest), off⟩ =
      (.error (some ((ParseBitSequenceError.expectedClosingBracketToMatch off).between
        (off + 1 + utf8Len bits) (off + 1 + utf8Len bits + 1))), ⟨rest, off + 1 + utf8Len bits⟩) := by
  rw [parse_bit_sequence, token_cons_self]
  have hsplit := tokens_while_split (fun c => c = '0' || c = '1') bits rest
    (off + '<'.utf8Size)
    (fun b hbb => by rcases hb b hbb with rfl | rfl <;> decide) hr0
  have hlt : '<'.utf8Size = 1 := rfl
  rw [hlt] at hsplit
  simp only [hlt, hsplit,
    @token_head_not '>' ⟨rest, off + 1 + utf8Len bits⟩ hrg]

/-- A named composite whose leading character is not `\x7b` is a no-match. -/
theorem parse_named_composite_not_open
    (pf : Toks → Except ParseError (String × Value Unit) × Toks) {t : Toks}
    (h : head_not lbrace t.s = true) :
    parse_named_composite pf t = (.error none, t) := by
  rw [parse_named_composite, token_head_not h]

/-- An unnamed composite whose leading character is not `(` is a no-match. -/
theorem parse_unnamed_composite_not_open
    (pv : Toks → Except ParseError (Value Unit) × Toks) {t : Toks}
    (h : head_not '(' t.s = true) :
    parse_unnamed_composite pv t = (.error none, t) := by
  rw [parse_unnamed_composite, token_head_not h]

/-- The missing-`\x7d` hard error of `parse_named_composite`: when the open
brace is consumed, the interior is not the empty form, the field list parses,
and no closing brace follows, the error is anchored one character wide at the
position where the closer was expected, with the opening brace's offset in
the payload. -/
theorem parse_named_composite_missing_close
    (pf : Toks → Except ParseError (String × Value Unit) × Toks)
    (rest0 : List Char) (off : Nat) (vals : List (String × Value Unit)) (t3 : Toks)
    (hne : head_not rbrace (skip_whitespace ⟨rest0, off + 1⟩).s = true)
    (hsep : sep_by_err pf (fun t => skip_spaced_separator ',' t)
        ((skip_whitespace ⟨rest0, off + 1⟩).s.length + 1)
        (skip_whitespace ⟨rest0, off + 1⟩) = (.ok vals, t3))
    (hcl : head_not rbrace (skip_whitespace t3).s = true) :
    parse_named_composite pf ⟨lbrace :: rest0, off⟩ =
      (.error (some ((ParseComplexError.expectedCloserToMatch rbrace off).at_one
        (skip_whitespace t3).off)), skip_whitespace t3) := by
  rw [parse_named_composite, token_cons_self]
  have hl : lbrace.utf8Size = 1 := rfl
  rw [hl]
  simp only [token_head_not hne, hsep, token_head_not hcl]

/-- `parse_variant` is a no-match, consuming nothing, when no variant
identifier is present. -/
theorem parse_variant_no_ident
    (pnc puc : Toks → Except (Option ParseError) (Composite Unit) × Toks) (t : Toks)
    (h : (parse_optional_variant_ident t).1 = none) :
    parse_variant pnc puc t = (.error none, t) := by
  rcases hx : parse_optional_variant_ident t with ⟨o, t'⟩
  cases o with
  | none => rw [parse_variant, hx]
  | some s => rw [hx] at h; simp at h

/-- `parse_variant` is a no-match (not a hard error) when a variant name was
parsed but neither composite opener follows. -/
theorem parse_variant_ident_no_composite
    (pf : Toks → Except ParseError (String × Value Unit) × Toks)
    (pv : Toks → Except ParseError (Value Unit) × Toks)
    (t t1 : Toks) (name : String)
    (hid : parse_optional_variant_ident t = (some name, t1))
    (hb : head_not lbrace (skip_whitespace t1).s = true)
    (hp : head_not '(' (skip_whitespace t1).s = true) :
    parse_variant (parse_named_composite pf) (parse_unnamed_composite pv) t =
      (.error none, skip_whitespace t1) := by
  simp only [parse_variant, hid]
  rw [one_of_cons_nomatch (parse_named_composite_not_open pf hb),
    one_of_cons_nomatch (parse_unnamed_composite_not_open pv hp), one_of_nil]

/-- A hard error of the composite payload propagates out of `parse_variant`
verbatim. -/
theorem parse_variant_composite_error
    (pnc puc : Toks → Except (Option ParseError) (Composite Unit) × Toks)
    (t t1 t' : Toks) (name : String) (e : ParseError)
    (hid : parse_optional_variant_ident t = (some name, t1))
    (herr : pnc (skip_whitespace t1) = (.error (some e), t')) :
    parse_variant pnc puc t = (.error (some e), t') := by
  simp only [parse_variant, hid]
  rw [one_of_cons_err herr]

/-- Once a digit has been seen, the run consumes every digit and underscore
up to a boundary. -/
theorem num_run_true_all (xs : List Char) (hx : ∀ c ∈ xs, c.isDigit = true ∨ c = '_')
    (rest : List Char) (h1 : head_not_digit rest = true) (h2 : head_not '_' rest = true) :
    num_run true (xs ++ rest) = (xs, rest, true) := by
  induction xs with
  | nil =>
    cases rest with
    | nil => rfl
    | cons c cs =>
      simp [head_not_digit] at h1
      simp [head_not] at h2
      exact num_run_stop h1 h2 cs true
  | cons x xs' ih =>
    have hx' : ∀ c ∈ xs', c.isDigit = true ∨ c = '_' := fun c hc => hx c (by simp [hc])
    rcases hx x (by simp) with hd | rfl
    · simp [num_run, hd, ih hx']
    · simp [num_run, ih hx']

/-- The digit run on a leading digit: everything (digits and underscores) up
to the boundary is consumed and the digit flag ends true. -/
theorem num_run_lead_digit (d : Char) (hd : d.isDigit = true) (xs rest : List Char)
    (hx : ∀ c ∈ xs, c.isDigit = true ∨ c = '_')
    (h1 : head_not_digit rest = true) (h2 : head_not '_' rest = true) :
    num_run false (d :: (xs ++ rest)) = (d :: xs, rest, true) := by
  simp [num_run, hd, num_run_true_all xs hx rest h1 h2]

theorem digit_ne_plus {c : Char} (h : c.isDigit = true) : c ≠ '+' := by
  intro he; subst he; simp [Char.isDigit] at h
theorem digit_ne_minus {c : Char} (h : c.isDigit = true) : c ≠ '-' := by
  intro he; subst he; simp [Char.isDigit] at h

/-- `parse_number` on a digit run with interior separator runs of any length:
all of it is consumed, and the parsed integer is the digits with the
separators stripped.  In particular a separator that follows another
separator (not a digit) is consumed too. -/
theorem parse_number_separator_runs (d1 us d2 rest : List Char) (off : Nat)
    (h1 : ∀ c ∈ d1, c.isDigit = true) (h1n : d1 ≠ [])
    (hu : ∀ c ∈ us, c = '_')
    (h2 : ∀ c ∈ d2, c.isDigit = true)
    (hr : head_not_digit rest = true) (hru : head_not '_' rest = true)
    (hv : digits_to_nat (d1 ++ d2) < 2 ^ 128) :
    parse_number ⟨d1 ++ us ++ d2 ++ rest, off⟩ =
      (.ok (.u128 (digits_to_nat (d1 ++ d2))),
        ⟨rest, off + utf8Len (d1 ++ us ++ d2)⟩) := by
  rcases d1 with _ | ⟨d, d1'⟩
  · exact absurd rfl h1n
  have hd : d.isDigit = true := h1 d (by simp)
  have hmid : ∀ c ∈ d1' ++ us ++ d2, c.isDigit = true ∨ c = '_' := by
    intro c hc
    rcases List.mem_append.mp hc with hc' | hc'
    · rcases List.mem_append.mp hc' with hc'' | hc''
      · exact Or.inl (h1 c (by simp [hc'']))
      · exact Or.inr (hu c hc'')
    · exact Or.inl (h2 c hc')
  have hrun := num_run_lead_digit d hd (d1' ++ us ++ d2) rest hmid hr hru
  have hrun' : num_run false (d :: (d1' ++ (us ++ (d2 ++ rest)))) =
      (d :: (d1' ++ us ++ d2), rest, true) := by
    simpa [List.append_assoc] using hrun
  have hfilter : (d :: (d1' ++ (us ++ d2))).filter Char.isDigit = d :: (d1' ++ d2) := by
    have e1 : List.filter Char.isDigit d1' = d1' :=
      List.filter_eq_self.mpr (fun c hc => h1 c (by simp [hc]))
    have e2 : List.filter Char.isDigit us = [] := by
      rw [List.filter_eq_nil_iff]
      intro c hc
      rw [hu c hc]
      decide
    have e3 : List.filter Char.isDigit d2 = d2 := List.filter_eq_self.mpr h2
    simp [List.filter_append, List.filter_cons, hd, e1, e2, e3]
  have hdpos : d.utf8Size ≠ 0 := Nat.pos_iff_ne_zero.mp (utf8Size_pos d)
  rw [parse_number]
  simp only [List.cons_append, List.append_assoc]
  rw [token_cons_ne (digit_ne_plus hd), token_cons_ne (digit_ne_minus hd)]
  have hv' : digits_to_nat (d :: (d1' ++ d2)) < 2 ^ 128 := by
    simpa [List.cons_append] using hv
  simp [hrun', hfilter, hv', utf8Len_cons, utf8Len_append, List.append_assoc,
    List.cons_append, hdpos]
  exact hv' 

/-- The `one_of`-based dispatch of the source equals the spec's
alternative-selection rule. -/
theorem one_of_eq_dispatch
    (alts : List (Toks → Except (Option ParseError) (Value Unit) × Toks)) (t : Toks) :
    (match one_of alts t with
      | (some r, t') => (r, t')
      | (none, t') => (.error (ParseError.new_at .expectedValue t'.off), t')) =
    dispatch_alternatives alts t := by
  induction alts generalizing t with
  | nil => rfl
  | cons p ps ih =>
    rcases h : p t with ⟨r, t'⟩
    rcases r with e | a
    · rcases e with _ | e
      · rw [one_of_cons_nomatch h, dispatch_alternatives]
        rw [h]
        exact ih t
      · rw [one_of_cons_err h, dispatch_alternatives]
        rw [h]
    · rw [one_of_cons_ok h, dispatch_alternatives]
      rw [h]

/-! ## Round-trip lemmas for the literal parsers -/

theorem string_mk_toList (s : String) : String.mk s.toList = s := rfl

/-- The escape table is a bijection where defined, with 1-byte codes. -/
theorem escape_roundtrip {c ec : Char} (h : to_escape_code c = some ec) :
    from_escape_code ec = some c ∧ ec.utf8Size = 1 := by
  unfold to_escape_code at h
  split_ifs at h with h1 h2 h3 h4 h5 h6 h7 <;>
    first
    | (injection h with he; subst he; first
        | (subst h1; exact ⟨by decide, by decide⟩)
        | (subst h2; exact ⟨by decide, by decide⟩)
        | (subst h3; exact ⟨by decide, by decide⟩)
        | (subst h4; exact ⟨by decide, by decide⟩)
        | (subst h5; exact ⟨by decide, by decide⟩)
        | (subst h6; exact ⟨by decide, by decide⟩)
        | (subst h7; exact ⟨by decide, by decide⟩))
    | exact absurd h (by simp)

/-- Characters the escape table does not cover are in particular not the
backslash or either quote. -/
theorem to_escape_code_none {c : Char} (h : to_escape_code c = none) :
    c ≠ bslash ∧ c ≠ dquote ∧ c ≠ squote := by
  refine ⟨fun e => ?_, fun e => ?_, fun e => ?_⟩ <;> subst e <;> exact absurd h (by decide)

/-- Basic exclusions for decimal digit characters. -/
theorem isDigit_facts {c : Char} (h : c.isDigit = true) :
    c ≠ 't' ∧ c ≠ 'f' ∧ c ≠ squote ∧ c ≠ dquote ∧ c.isWhitespace = false ∧
      c ≠ ')' ∧ c ≠ rbrace ∧ c ≠ ',' := by
  refine ⟨?_, ?_, ?_, ?_, ?_, ?_, ?_, ?_⟩
  · intro e; subst e; exact absurd h (by decide)
  · intro e; subst e; exact absurd h (by decide)
  · intro e; subst e; exact absurd h (by decide)
  · intro e; subst e; exact absurd h (by decide)
  · cases hw : c.isWhitespace
    · rfl
    · rcases whitespace_cases hw with rfl | rfl | rfl | rfl <;> exact absurd h (by decide)
  · intro e; subst e; exact absurd h (by decide)
  · intro e; subst e; exact absurd h (by decide)
  · intro e; subst e; exact absurd h (by decide)

/-- `digit_char` facts for `d < 10`. -/
theorem digit_char_spec {d : Nat} (h : d < 10) :
    (digit_char d).isDigit = true ∧ (digit_char d).toNat = 48 + d ∧
      (digit_char d).utf8Size = 1 := by
  interval_cases d <;> exact ⟨by decide, by decide, by decide⟩

/- Step lemmas for the `parse_string` character loop. -/

theorem psl_bslash (start : Nat) (acc : List Char) (l : List Char) (off : Nat) :
    parse_string_loop start acc false (bslash :: l) off =
      parse_string_loop start acc true l (off + 1) := by
  simp [parse_string_loop, show bslash.utf8Size = 1 from rfl]

theorem psl_escaped (start : Nat) (acc : List Char) {ec c' : Char} (l : List Char)
    (off : Nat) (h : from_escape_code ec = some c') :
    parse_string_loop start acc true (ec :: l) off =
      parse_string_loop start (acc ++ [c']) false l (off + ec.utf8Size) := by
  simp [parse_string_loop, h]

theorem psl_close (start : Nat) (acc : List Char) (l : List Char) (off : Nat) :
    parse_string_loop start acc false (dquote :: l) off =
      (.ok (String.mk acc), ⟨l, off + 1⟩) := by
  simp [parse_string_loop, show ¬(dquote = bslash) from by decide,
    show dquote.utf8Size = 1 from rfl]

theorem psl_plain (start : Nat) (acc : List Char) {c : Char} (l : List Char) (off : Nat)
    (h1 : c ≠ bslash) (h2 : c ≠ dquote) :
    parse_string_loop start acc false (c :: l) off =
      parse_string_loop start (acc ++ [c]) false l (off + c.utf8Size) := by
  simp [parse_string_loop, h1, h2]

/-- The string-literal loop inverts the escaping loop of the formatter. -/
theorem parse_string_loop_escape (cs : List Char) :
    ∀ (acc : List Char) (start off : Nat) (rest : List Char),
    parse_string_loop start acc false (escape_chars cs ++ dquote :: rest) off =
      (.ok (String.mk (acc ++ cs)), ⟨rest, off + utf8Len (escape_chars cs) + 1⟩) := by
  induction cs with
  | nil =>
    intro acc start off rest
    simp [escape_chars, psl_close, utf8Len]
  | cons c cs' ih =>
    intro acc start off rest
    cases he : to_escape_code c with
    | some ec =>
      obtain ⟨hfe, hec1⟩ := escape_roundtrip he
      have hshape : escape_chars (c :: cs') ++ dquote :: rest =
          bslash :: ec :: (escape_chars cs' ++ dquote :: rest) := by
        simp [escape_chars, escape_char_seq, he]
      rw [hshape, psl_bslash, psl_escaped _ _ _ _ hfe, ih]
      have hlen : utf8Len (escape_chars (c :: cs')) = 2 + utf8Len (escape_chars cs') := by
        simp [escape_chars, escape_char_seq, he, utf8Len_append, utf8Len_cons, utf8Len,
          show bslash.utf8Size = 1 from rfl, hec1]
        omega
      rw [hlen]
      simp [List.append_assoc]
      omega
    | none =>
      obtain ⟨hb, hq, -⟩ := to_escape_code_none he
      have hshape : escape_chars (c :: cs') ++ dquote :: rest =
          c :: (escape_chars cs' ++ dquote :: rest) := by
        simp [escape_chars, escape_char_seq, he]
      rw [hshape, psl_plain _ _ _ _ hb hq, ih]
      have hlen : utf8Len (escape_chars (c :: cs')) = c.utf8Size + utf8Len (escape_chars cs') := by
        simp [escape_chars, escape_char_seq, he, utf8Len_append, utf8Len_cons, utf8Len]
      rw [hlen]
      simp [List.append_assoc]
      omega

/-- `parse_string` inverts `fmt_string`, for any continuation. -/
theorem rt_string (s : String) (rest : List Char) (off : Nat) :
    parse_string ⟨fmt_string s ++ rest, off⟩ =
      (.ok s, ⟨rest, off + utf8Len (fmt_string s)⟩) := by
  have hshape : fmt_string s ++ rest = dquote :: (escape_chars s.toList ++ dquote :: rest) := by
    simp [fmt_string]
  rw [hshape, parse_string]
  rw [token_cons_self]
  have hloop := parse_string_loop_escape s.toList [] off (off + dquote.utf8Size) rest
  simp only [show dquote.utf8Size = 1 from rfl] at hloop ⊢
  rw [hloop]
  simp only [List.nil_append, string_mk_toList]
  have hlen : utf8Len (fmt_string s) = 1 + utf8Len (escape_chars s.toList) + 1 := by
    simp [fmt_string, utf8Len_cons, utf8Len_append, utf8Len,
      show dquote.utf8Size = 1 from rfl]
    omega
  rw [hlen]
  simp only [Prod.mk.injEq, Toks.mk.injEq]
  refine ⟨trivial, trivial, by omega⟩

/-- Equal results and remainders with equal offsets give equal parser
outputs. -/
theorem pair_toks_eq {α : Type} (r : α) {s : List Char} {o1 o2 : Nat} (h : o1 = o2) :
    ((r, ⟨s, o1⟩) : α × Toks) = (r, ⟨s, o2⟩) := by rw [h]

/-- `parse_char` inverts `fmt_char`, for any continuation. -/
theorem rt_char (c : Char) (rest : List Char) (off : Nat) :
    parse_char ⟨fmt_char c ++ rest, off⟩ =
      (.ok c, ⟨rest, off + utf8Len (fmt_char c)⟩) := by
  cases he : to_escape_code c with
  | none =>
    obtain ⟨hb, -, -⟩ := to_escape_code_none he
    have hshape : fmt_char c ++ rest = squote :: c :: squote :: rest := by
      simp [fmt_char, escape_char_seq, he]
    rw [hshape, parse_char, token_cons_self]
    simp only [Toks.next, if_neg hb, parse_char_close]
    rw [show Toks.token squote
        ⟨squote :: rest, off + squote.utf8Size + c.utf8Size⟩ =
        (true, ⟨rest, off + squote.utf8Size + c.utf8Size + squote.utf8Size⟩) from
      token_cons_self squote rest _]
    have hlen : utf8Len (fmt_char c) = 1 + c.utf8Size + 1 := by
      simp [fmt_char, escape_char_seq, he, utf8Len_cons, utf8Len_append, utf8Len,
        show squote.utf8Size = 1 from rfl]
      omega
    rw [hlen]
    exact pair_toks_eq _ (by simp [show squote.utf8Size = 1 from rfl]; omega)
  | some ec =>
    obtain ⟨hfe, hec1⟩ := escape_roundtrip he
    have hshape : fmt_char c ++ rest = squote :: bslash :: ec :: squote :: rest := by
      simp [fmt_char, escape_char_seq, he]
    rw [hshape, parse_char, token_cons_self]
    simp only [Toks.next, if_pos rfl, hfe, parse_char_close]
    rw [show Toks.token squote
        ⟨squote :: rest, off + squote.utf8Size + bslash.utf8Size + ec.utf8Size⟩ =
        (true, ⟨rest, off + squote.utf8Size + bslash.utf8Size + ec.utf8Size + squote.utf8Size⟩)
      from token_cons_self squote rest _]
    have hlen : utf8Len (fmt_char c) = 4 := by
      simp [fmt_char, escape_char_seq, he, utf8Len_cons, utf8Len_append, utf8Len,
        show squote.utf8Size = 1 from rfl, show bslash.utf8Size = 1 from rfl, hec1]
    rw [hlen]
    exact pair_toks_eq _ (by
      simp [show squote.utf8Size = 1 from rfl, show bslash.utf8Size = 1 from rfl, hec1])

/-- `parse_bool` accepts a formatted `true`, for any continuation. -/
theorem parse_bool_true (rest : List Char) (off : Nat) :
    parse_bool ⟨"true".toList ++ rest, off⟩ = (some true, ⟨rest, off + 4⟩) := by
  rw [parse_bool, tokens_whole]
  simp
  decide

/-- `parse_bool` accepts a formatted `false`, for any continuation. -/
theorem parse_bool_false (rest : List Char) (off : Nat) :
    parse_bool ⟨"false".toList ++ rest, off⟩ = (some false, ⟨rest, off + 5⟩) := by
  rw [parse_bool]
  rw [show "false".toList ++ rest = 'f' :: ("alse".toList ++ rest) from rfl]
  rw [show ("true".toList : List Char) = 't' :: "rue".toList from rfl]
  rw [tokens_head_ne (by decide)]
  rw [show 'f' :: ("alse".toList ++ rest) = "false".toList ++ rest from rfl]
  rw [tokens_whole]
  simp
  decide

/-- The bit characters decode back to the bits. -/
theorem bit_chars_decode (bits : List Bool) :
    List.map (fun c => c == '1') (List.map (fun b => if b then '1' else '0') bits) = bits := by
  induction bits with
  | nil => rfl
  | cons b bs ih => cases b <;> simp [ih]

theorem utf8Len_bit_chars (bits : List Bool) :
    utf8Len (List.map (fun b => if b then '1' else '0') bits) = bits.length := by
  induction bits with
  | nil => rfl
  | cons b bs ih =>
    cases b <;>
      simp [utf8Len_cons, ih, show ('1'.utf8Size : Nat) = 1 from rfl,
        show ('0'.utf8Size : Nat) = 1 from rfl] <;>
      omega

/-- `parse_bit_sequence` inverts `fmt_bitsequence`, for any continuation. -/
theorem rt_bitseq (bits : List Bool) (rest : List Char) (off : Nat) :
    parse_bit_sequence ⟨fmt_bitsequence bits ++ rest, off⟩ =
      (.ok bits, ⟨rest, off + utf8Len (fmt_bitsequence bits)⟩) := by
  have hshape : fmt_bitsequence bits ++ rest =
      '<' :: (List.map (fun b => if b then '1' else '0') bits ++ '>' :: rest) := by
    simp [fmt_bitsequence]
  rw [hshape, parse_bit_sequence, token_cons_self]
  have hsplit := tokens_while_split (fun c => c = '0' || c = '1')
    (List.map (fun b => if b then '1' else '0') bits) ('>' :: rest) (off + '<'.utf8Size)
    (by
      intro x hx
      rcases List.mem_map.mp hx with ⟨b, -, rfl⟩
      cases b <;> decide)
    (by simp [head_not_sat])
  simp only [hsplit]
  rw [show Toks.token '>'
      ⟨'>' :: rest, off + '<'.utf8Size + utf8Len (List.map (fun b => if b then '1' else '0') bits)⟩ =
      (true, ⟨rest, off + '<'.utf8Size +
        utf8Len (List.map (fun b => if b then '1' else '0') bits) + '>'.utf8Size⟩) from
    token_cons_self '>' rest _]
  have hlen : utf8Len (fmt_bitsequence bits) = 1 + bits.length + 1 := by
    simp [fmt_bitsequence, utf8Len_cons, utf8Len_append, utf8Len, utf8Len_bit_chars,
      show ('<'.utf8Size : Nat) = 1 from rfl, show ('>'.utf8Size : Nat) = 1 from rfl]
    omega
  rw [hlen, bit_chars_decode]
  exact pair_toks_eq _ (by
    simp [utf8Len_bit_chars, show ('<'.utf8Size : Nat) = 1 from rfl,
      show ('>'.utf8Size : Nat) = 1 from rfl]
    omega)

theorem digits_to_nat_append_singleton (xs : List Char) (d : Char) :
    digits_to_nat (xs ++ [d]) = digits_to_nat xs * 10 + (d.toNat - 48) := by
  simp [digits_to_nat, List.foldl_append]

/-- The decimal renderer produces nonempty all-digit text whose numeric value
is the number itself. -/
theorem nat_decimal_go_spec : ∀ (fuel : Nat), ∀ n, n < fuel →
    (∀ c ∈ nat_decimal_go fuel n, c.isDigit = true) ∧
    nat_decimal_go fuel n ≠ [] ∧
    digits_to_nat (nat_decimal_go fuel n) = n := by
  intro fuel
  induction fuel with
  | zero => intro n h; exact absurd h (Nat.not_lt_zero n)
  | succ f ih =>
    intro n h
    rw [nat_decimal_go]
    by_cases h10 : n < 10
    · simp only [if_pos h10]
      obtain ⟨hdig, ht, -⟩ := digit_char_spec h10
      refine ⟨?_, by simp, ?_⟩
      · intro c hc; simp at hc; subst hc; exact hdig
      · simp [digits_to_nat]
        omega
    · simp only [if_neg h10]
      have hdiv : n / 10 < f := by omega
      obtain ⟨ih1, ih2, ih3⟩ := ih (n / 10) hdiv
      obtain ⟨hdig, ht, -⟩ := digit_char_spec (Nat.mod_lt n (by omega))
      refine ⟨?_, by simp, ?_⟩
      · intro c hc
        rcases List.mem_append.mp hc with hc | hc
        · exact ih1 c hc
        · simp at hc; subst hc; exact hdig
      · rw [digits_to_nat_append_singleton, ih3, ht]
        omega

theorem nat_decimal_spec (n : Nat) :
    (∀ c ∈ nat_decimal n, c.isDigit = true) ∧ nat_decimal n ≠ [] ∧
      digits_to_nat (nat_decimal n) = n :=
  nat_decimal_go_spec (n + 1) n (by omega)

/-- `parse_number` inverts the unsigned decimal rendering (continuation must
not extend the digit run). -/
theorem rt_number_pos (n : Nat) (hn : n < 2 ^ 128) (rest : List Char) (off : Nat)
    (h1 : head_not_digit rest = true) (h2 : head_not '_' rest = true) :
    parse_number ⟨nat_decimal n ++ rest, off⟩ =
      (.ok (.u128 n), ⟨rest, off + utf8Len (nat_decimal n)⟩) := by
  obtain ⟨hd, hne, hval⟩ := nat_decimal_spec n
  have h := parse_number_separator_runs (nat_decimal n) [] [] rest off hd hne
    (by simp) (by simp) h1 h2 (by simpa [hval] using hn)
  simpa [hval] using h

/-- `parse_number` inverts the signed decimal rendering of a negative value
(continuation must not extend the digit run). -/
theorem rt_number_neg (m : Nat) (hm : m ≤ 2 ^ 127) (rest : List Char) (off : Nat)
    (h1 : head_not_digit rest = true) (h2 : head_not '_' rest = true) :
    parse_number ⟨'-' :: (nat_decimal m ++ rest), off⟩ =
      (.ok (.i128 (-(m : Int))), ⟨rest, off + (1 + utf8Len (nat_decimal m))⟩) := by
  obtain ⟨hd, hne, hval⟩ := nat_decimal_spec m
  obtain ⟨d, ds, hds⟩ := List.exists_cons_of_ne_nil hne
  have hdd : d.isDigit = true := hd d (by rw [hds]; simp)
  have hds' : ∀ c ∈ ds, c.isDigit = true ∨ c = '_' := fun c hc =>
    Or.inl (hd c (by rw [hds]; simp [hc]))
  have hrun : num_run false (nat_decimal m ++ rest) = (nat_decimal m, rest, true) := by
    rw [hds]
    simpa [List.cons_append] using num_run_lead_digit d hdd ds rest hds' h1 h2
  have hfilter : (nat_decimal m).filter Char.isDigit = nat_decimal m :=
    List.filter_eq_self.mpr (fun c hc => hd c hc)
  have hpos : utf8Len (nat_decimal m) ≠ 0 := by
    rw [hds, utf8Len_cons]
    have := utf8Size_pos d
    omega
  rw [parse_number]
  rw [token_cons_ne (by decide), token_cons_self]
  simp [hrun, hfilter, hval, hm, show ('-'.utf8Size : Nat) = 1 from rfl, hpos]
  rw [if_neg (by omega)]
  rw [if_pos (show m ≤ 170141183460469231731687303715884105728 from hm)]
  exact pair_toks_eq _ (by omega)

/-! ## Head characterisation of formatted values -/

theorem num_boundary_facts {rest : List Char} (h : num_boundary rest = true) :
    head_not_digit rest = true ∧ head_not '_' rest = true := by
  cases rest with
  | nil => exact ⟨rfl, rfl⟩
  | cons c cs =>
    simp [num_boundary] at h
    simp [head_not_digit, head_not, h.1, h.2]

theorem is_ident_cons (c : Char) (cs : List Char) : is_ident_loop 0 (c :: cs) = false := by
  rw [is_ident_loop]
  by_cases h : c = '_'
  · subst h
    simp
  · simp [bne, h]

theorem is_ident_nonempty {s : String} (h : s.toList ≠ []) : is_ident s = false := by
  obtain ⟨c, cs, hds⟩ := List.exists_cons_of_ne_nil h
  rw [is_ident, hds, is_ident_cons]

theorem toList_ne_nil_of_not_isEmpty {s : String} (h : s.isEmpty = false) :
    s.toList ≠ [] := by
  cases s with
  | mk data =>
    cases data with
    | nil => simp [String.isEmpty] at h
    | cons c cs => simp [String.toList]

theorem fmt_field_name_nonempty {n : String} (h : n.isEmpty = false) :
    fmt_field_name n = fmt_string n := by
  rw [fmt_field_name, if_neg]
  rw [is_ident_nonempty (toList_ne_nil_of_not_isEmpty h)]
  simp

theorem fmt_variant_name_nonempty {n : String} (h : n.isEmpty = false) :
    fmt_variant_name n = 'v' :: fmt_string n := by
  rw [fmt_variant_name, if_neg]
  rw [is_ident_nonempty (toList_ne_nil_of_not_isEmpty h)]
  simp

/-- Every formatted composite opens with `\x7b` or `(`. -/
theorem fmt_composite_head {T : Type} (c : Composite T) (out : List Char)
    (hf : fmt_composite c = some out) :
    (∃ o, out = lbrace :: o) ∨ (∃ o, out = '(' :: o) := by
  cases c with
  | named fields =>
    cases hx : fmt_fields fields with
    | none => rw [fmt_composite, hx] at hf; cases hf
    | some inner =>
      rw [fmt_composite, hx] at hf
      injection hf with hf
      exact Or.inl ⟨_, hf.symm⟩
  | unnamed vals =>
    cases hx : fmt_vals vals with
    | none => rw [fmt_composite, hx] at hf; cases hf
    | some inner =>
      rw [fmt_composite, hx] at hf
      injection hf with hf
      exact Or.inr ⟨_, hf.symm⟩

/-- Every formatted round-trippable value begins with a non-whitespace
character that is not `)`. -/
theorem fmt_value_head {T : Type} (v : Value T) (out : List Char)
    (hok : rt_ok_value v = true) (hf : fmt_value v = some out) :
    ∃ c o, out = c :: o ∧ c.isWhitespace = false ∧ c ≠ ')' := by
  rcases v with ⟨d, ctx⟩
  rw [show rt_ok_value (Value.mk d ctx) = rt_ok_def d from rfl] at hok
  rw [show fmt_value (Value.mk d ctx) = fmt_value_def d from rfl] at hf
  cases d with
  | primitive p =>
    rw [show fmt_value_def (ValueDef.primitive p) = fmt_primitive p from rfl] at hf
    rw [show rt_ok_def (ValueDef.primitive p) = prim_rt_ok p from rfl] at hok
    cases p with
    | bool b =>
      cases b <;> (injection hf with hf; subst hf; exact ⟨_, _, rfl, by decide, by decide⟩)
    | char c =>
      injection hf with hf; subst hf
      exact ⟨squote, _, rfl, by decide, by decide⟩
    | string s =>
      injection hf with hf; subst hf
      exact ⟨dquote, _, rfl, by decide, by decide⟩
    | u128 n =>
      injection hf with hf; subst hf
      obtain ⟨hd, hne, -⟩ := nat_decimal_spec n
      obtain ⟨c, cs, hds⟩ := List.exists_cons_of_ne_nil hne
      have hcd : c.isDigit = true := hd c (by rw [hds]; simp)
      obtain ⟨-, -, -, -, hw, hp, -, -⟩ := isDigit_facts hcd
      exact ⟨c, cs, hds, hw, hp⟩
    | i128 n =>
      simp [prim_rt_ok] at hok
      injection hf with hf; subst hf
      rw [int_decimal, if_pos hok.1]
      exact ⟨'-', _, rfl, by decide, by decide⟩
    | u256 b => simp [prim_rt_ok] at hok
    | i256 b => simp [prim_rt_ok] at hok
  | bitSequence bits =>
    rw [show fmt_value_def (ValueDef.bitSequence bits) = some (fmt_bitsequence bits) from rfl]
      at hf
    injection hf with hf; subst hf
    exact ⟨'<', _, rfl, by decide, by decide⟩
  | composite c =>
    rw [show fmt_value_def (ValueDef.composite c) = fmt_composite c from rfl] at hf
    rcases fmt_composite_head c out hf with ⟨o, rfl⟩ | ⟨o, rfl⟩
    · exact ⟨lbrace, o, rfl, by decide, by decide⟩
    · exact ⟨'(', o, rfl, by decide, by decide⟩
  | variant name values =>
    rw [show rt_ok_def (ValueDef.variant name values) =
      (!name.isEmpty && rt_ok_composite values) from rfl] at hok
    have hne : name.isEmpty = false := by
      rcases Bool.and_eq_true_iff.mp hok with ⟨h1, -⟩
      simpa using h1
    cases hx : fmt_composite values with
    | none => rw [show fmt_value_def (ValueDef.variant name values) =
        (match fmt_composite values with
          | none => none
          | some body => some (fmt_variant_name name ++ body)) from rfl, hx] at hf; cases hf
    | some body =>
      rw [show fmt_value_def (ValueDef.variant name values) =
        (match fmt_composite values with
          | none => none
          | some body => some (fmt_variant_name name ++ body)) from rfl, hx] at hf
      injection hf with hf
      rw [fmt_variant_name_nonempty hne] at hf
      exact ⟨'v', _, hf.symm, by decide, by decide⟩

/-! ## The round-trip induction on fuel -/

/-- A formatted nonempty field list opens with the quote of its first
(quoted) field name. -/
theorem fmt_fields_head {T : Type} (n : String) (v : Value T)
    (fs : List (String × Value T)) (inner : List Char)
    (hok : rt_ok_fields ((n, v) :: fs) = true)
    (hf : fmt_fields ((n, v) :: fs) = some inner) :
    ∃ o, inner = dquote :: o := by
  have hne : n.isEmpty = false := by
    simp [rt_ok_fields, Bool.and_eq_true_iff] at hok
    simpa using hok.1.1
  cases hvc : fmt_value v with
  | none => rw [fmt_fields, hvc] at hf; cases hf
  | some vc =>
    cases hrc : fmt_fields fs with
    | none => rw [fmt_fields, hvc, hrc] at hf; cases hf
    | some rc =>
      rw [fmt_fields, hvc, hrc] at hf
      injection hf with hf
      rw [fmt_field_name_nonempty hne, fmt_string] at hf
      exact ⟨_, hf.symm⟩

/-- A formatted field list is at least as long as the field count. -/
theorem fmt_fields_length {T : Type} :
    ∀ (fs : List (String × Value T)) (inner : List Char),
    fmt_fields fs = some inner → fs.length ≤ inner.length := by
  intro fs
  induction fs with
  | nil => intro inner hf; injection hf with hf; subst hf; simp
  | cons f fs' ih =>
    rcases f with ⟨n, v⟩
    intro inner hf
    cases hvc : fmt_value v with
    | none => rw [fmt_fields, hvc] at hf; cases hf
    | some vc =>
      cases hrc : fmt_fields fs' with
      | none => rw [fmt_fields, hvc, hrc] at hf; cases hf
      | some rc =>
        rw [fmt_fields, hvc, hrc] at hf
        injection hf with hf
        subst hf
        have := ih rc hrc
        cases fs' with
        | nil => simp; omega
        | cons g gs =>
          simp only [List.isEmpty_cons, if_neg]
          simp [List.length_append]
          simp at this
          omega

/-- A formatted value list is at least as long as the value count (values of
round-trippable lists format to nonempty text). -/
theorem fmt_vals_length {T : Type} :
    ∀ (vs : List (Value T)) (inner : List Char),
    rt_ok_vals vs = true → fmt_vals vs = some inner → vs.length ≤ inner.length := by
  intro vs
  induction vs with
  | nil => intro inner _ hf; injection hf with hf; subst hf; simp
  | cons v vs' ih =>
    intro inner hok hf
    have hok' : rt_ok_value v = true ∧ rt_ok_vals vs' = true := by
      simpa [rt_ok_vals, Bool.and_eq_true_iff] using hok
    cases hvc : fmt_value v with
    | none => rw [fmt_vals, hvc] at hf; cases hf
    | some vc =>
      cases hrc : fmt_vals vs' with
      | none => rw [fmt_vals, hvc, hrc] at hf; cases hf
      | some rc =>
        rw [fmt_vals, hvc, hrc] at hf
        injection hf with hf
        subst hf
        have hlen := ih rc hok'.2 hrc
        obtain ⟨c, o, hco, -, -⟩ := fmt_value_head v vc hok'.1 hvc
        subst hco
        cases vs' with
        | nil => simp
        | cons g gs =>
          simp only [List.isEmpty_cons, if_neg]
          simp [List.length_append]
          simp at hlen
          omega

/-- The field parser inverts one formatted `name: value` entry. -/
theorem rt_field_nv (fuel : Nat) (ih : RTV fuel) {T : Type}
    (n : String) (v : Value T) (vc cont : List Char) (off : Nat)
    (hn : n.isEmpty = false) (hok : rt_ok_value v = true)
    (hvc : fmt_value v = some vc) (hd : depth_value v ≤ fuel)
    (hb : num_boundary cont = true) :
    parse_field_name_and_value (parse_value fuel)
      ⟨(fmt_field_name n ++ ':' :: ' ' :: vc) ++ cont, off⟩ =
      (.ok (n, remove_context v),
        ⟨cont, off + utf8Len (fmt_field_name n ++ ':' :: ' ' :: vc)⟩) := by
  rw [fmt_field_name_nonempty hn]
  obtain ⟨hc, ho, hcons, hw, -⟩ := fmt_value_head v vc hok hvc
  have hshape : (fmt_string n ++ ':' :: ' ' :: vc) ++ cont =
      fmt_string n ++ (':' :: ' ' :: (vc ++ cont)) := by
    simp
  have hpf : parse_field_name ⟨fmt_string n ++ (':' :: ' ' :: (vc ++ cont)), off⟩ =
      (.ok n, ⟨':' :: ' ' :: (vc ++ cont), off + utf8Len (fmt_string n)⟩) := by
    simp only [parse_field_name, rt_string]
  have hsep : skip_spaced_separator ':'
      ⟨':' :: ' ' :: (vc ++ cont), off + utf8Len (fmt_string n)⟩ =
      (true, ⟨vc ++ cont, off + utf8Len (fmt_string n) + 2⟩) := by
    subst hcons
    simp only [skip_spaced_separator,
      skip_whitespace_not_ws (show Char.isWhitespace ':' = false from by decide),
      token_cons_self, List.cons_append,
      skip_whitespace_ws (show Char.isWhitespace ' ' = true from by decide),
      skip_whitespace_not_ws hw]
    exact pair_toks_eq _ (by
      simp [show (Char.utf8Size ':' : Nat) = 1 from rfl,
        show (Char.utf8Size ' ' : Nat) = 1 from rfl])
  have hpv := ih T v vc cont (off + utf8Len (fmt_string n) + 2) hok hvc hd hb
  rw [hshape, parse_field_name_and_value]
  simp only [hpf, hsep, hpv]
  exact pair_toks_eq _ (by
    simp [utf8Len_append, utf8Len_cons,
      show (Char.utf8Size ':' : Nat) = 1 from rfl,
      show (Char.utf8Size ' ' : Nat) = 1 from rfl]
    omega)

theorem prod_fst_false {β : Type} : ∀ (p : Bool × β), p.1 = false → p = (false, p.2)
  | (false, _), _ => rfl
  | (true, _), h => Bool.noConfusion h

theorem sep_by_err_succ {α : Type} (item : Toks → Except ParseError α × Toks)
    (sep : Toks → Bool × Toks) (b : Nat) (t : Toks) :
    sep_by_err item sep (b + 1) t =
      match item t with
      | (.error e, t1) => (.error e, t1)
      | (.ok a, t1) =>
        match sep t1 with
        | (false, _) => (.ok [a], t1)
        | (true, t2) =>
          match sep_by_err item sep b t2 with
          | (.ok rest, t3) => (.ok (a :: rest), t3)
          | (.error e, t3) => (.error e, t3) := rfl

theorem num_boundary_comma (rest : List Char) : num_boundary (',' :: rest) = true := rfl

/-- A formatted nonempty value list opens with its first value's head
character, which is not whitespace. -/
theorem fmt_vals_head {T : Type} (g : Value T) (gs : List (Value T))
    (rc : List Char) (hok : rt_ok_vals (g :: gs) = true)
    (hf : fmt_vals (g :: gs) = some rc) :
    ∃ c o, rc = c :: o ∧ c.isWhitespace = false ∧ c ≠ ')' := by
  have hokg : rt_ok_value g = true := by
    simp only [rt_ok_vals, Bool.and_eq_true_iff] at hok
    exact hok.1
  cases hvc : fmt_value g with
  | none => rw [fmt_vals, hvc] at hf; cases hf
  | some vc =>
    cases hrc : fmt_vals gs with
    | none => rw [fmt_vals, hvc, hrc] at hf; cases hf
    | some rc2 =>
      rw [fmt_vals, hvc, hrc] at hf
      injection hf with hf
      obtain ⟨c, o, hco, hw, hnp⟩ := fmt_value_head g vc hokg hvc
      subst hco
      exact ⟨c, _, by rw [← hf]; rfl, hw, hnp⟩

/-- The separated-fields parser inverts a formatted nonempty field list,
given that a separator does not match at the continuation. -/
theorem rt_fields (fuel : Nat) (ih : RTV fuel) {T : Type} :
    ∀ (fs : List (String × Value T)) (budget : Nat) (inner cont : List Char)
      (off : Nat),
    fs.isEmpty = false → rt_ok_fields fs = true → fmt_fields fs = some inner →
    depth_fields fs ≤ fuel → num_boundary cont = true →
    (∀ o, (skip_spaced_separator ',' ⟨cont, o⟩).1 = false) →
    fs.length ≤ budget →
    sep_by_err (parse_field_name_and_value (parse_value fuel))
      (fun t => skip_spaced_separator ',' t) budget ⟨inner ++ cont, off⟩ =
      (.ok (remove_context_fields fs), ⟨cont, off + utf8Len inner⟩) := by
  intro fs
  induction fs with
  | nil => intro budget inner cont off hne; simp at hne
  | cons f fs' ihl =>
    rcases f with ⟨n, v⟩
    intro budget inner cont off hne hok hf hdep hb hsepf hbud
    simp only [rt_ok_fields, Bool.and_eq_true_iff] at hok
    obtain ⟨⟨hokn0, hokv⟩, hokr⟩ := hok
    have hokn : n.isEmpty = false := by simpa using hokn0
    rw [depth_fields] at hdep
    have hdv : depth_value v ≤ fuel := le_trans (le_max_left _ _) hdep
    have hdr : depth_fields fs' ≤ fuel := le_trans (le_max_right _ _) hdep
    rw [List.length_cons] at hbud
    cases hvc : fmt_value v with
    | none => rw [fmt_fields, hvc] at hf; cases hf
    | some vc =>
    cases hrc : fmt_fields fs' with
    | none => rw [fmt_fields, hvc, hrc] at hf; cases hf
    | some rc =>
    rw [fmt_fields, hvc, hrc] at hf
    injection hf with hf
    subst hf
    cases budget with
    | zero => omega
    | succ b =>
    cases fs' with
    | nil =>
      have hshape : (fmt_field_name n ++ ':' :: ' ' :: vc ++
          (if ([] : List (String × Value T)).isEmpty then []
            else ',' :: ' ' :: rc)) ++ cont =
          (fmt_field_name n ++ ':' :: ' ' :: vc) ++ cont := by
        simp
      rw [sep_by_err_succ, hshape]
      simp only [rt_field_nv fuel ih n v vc cont off hokn hokv hvc hdv hb]
      rw [prod_fst_false (skip_spaced_separator ','
        ⟨cont, off + utf8Len (fmt_field_name n ++ ':' :: ' ' :: vc)⟩) (hsepf _)]
      exact pair_toks_eq _ (by simp [utf8Len_append, utf8Len_cons])
    | cons g gs =>
      rcases g with ⟨gn, gv⟩
      have hshape : (fmt_field_name n ++ ':' :: ' ' :: vc ++
          (if ((gn, gv) :: gs).isEmpty then [] else ',' :: ' ' :: rc))
            ++ cont =
          (fmt_field_name n ++ ':' :: ' ' :: vc) ++ (',' :: ' ' :: (rc ++ cont)) := by
        simp
      have hitem := rt_field_nv fuel ih n v vc (',' :: ' ' :: (rc ++ cont)) off
        hokn hokv hvc hdv (num_boundary_comma _)
      have hsep : ∀ o, skip_spaced_separator ','
          ⟨',' :: ' ' :: (rc ++ cont), o⟩ = (true, ⟨rc ++ cont, o + 2⟩) := by
        intro o
        obtain ⟨rtl, hrt⟩ := fmt_fields_head gn gv gs rc hokr hrc
        subst hrt
        simp only [skip_spaced_separator,
          skip_whitespace_not_ws (show Char.isWhitespace ',' = false from by decide),
          token_cons_self, List.cons_append,
          skip_whitespace_ws (show Char.isWhitespace ' ' = true from by decide),
          skip_whitespace_not_ws (show Char.isWhitespace dquote = false from by decide)]
        exact pair_toks_eq _ (by
          simp [show (Char.utf8Size ',' : Nat) = 1 from rfl,
            show (Char.utf8Size ' ' : Nat) = 1 from rfl])
      have hrec := ihl b rc cont
        (off + utf8Len (fmt_field_name n ++ ':' :: ' ' :: vc) + 2)
        (by simp) hokr hrc hdr hb hsepf (by omega)
      rw [sep_by_err_succ, hshape]
      simp only [hitem, hsep, hrec, remove_context_fields]
      exact pair_toks_eq _ (by
        simp [utf8Len_append, utf8Len_cons,
          show (Char.utf8Size ',' : Nat) = 1 from rfl,
          show (Char.utf8Size ' ' : Nat) = 1 from rfl,
          show (Char.utf8Size ':' : Nat) = 1 from rfl]
        omega)

/-- The separated-values parser inverts a formatted nonempty value list,
given that a separator does not match at the continuation. -/
theorem rt_vals (fuel : Nat) (ih : RTV fuel) {T : Type} :
    ∀ (vs : List (Value T)) (budget : Nat) (inner cont : List Char) (off : Nat),
    vs.isEmpty = false → rt_ok_vals vs = true → fmt_vals vs = some inner →
    depth_vals vs ≤ fuel → num_boundary cont = true →
    (∀ o, (skip_spaced_separator ',' ⟨cont, o⟩).1 = false) →
    vs.length ≤ budget →
    sep_by_err (parse_value fuel)
      (fun t => skip_spaced_separator ',' t) budget ⟨inner ++ cont, off⟩ =
      (.ok (remove_context_vals vs), ⟨cont, off + utf8Len inner⟩) := by
  intro vs
  induction vs with
  | nil => intro budget inner cont off hne; simp at hne
  | cons v vs' ihl =>
    intro budget inner cont off hne hok hf hdep hb hsepf hbud
    simp only [rt_ok_vals, Bool.and_eq_true_iff] at hok
    obtain ⟨hokv, hokr⟩ := hok
    rw [depth_vals] at hdep
    have hdv : depth_value v ≤ fuel := le_trans (le_max_left _ _) hdep
    have hdr : depth_vals vs' ≤ fuel := le_trans (le_max_right _ _) hdep
    rw [List.length_cons] at hbud
    cases hvc : fmt_value v with
    | none => rw [fmt_vals, hvc] at hf; cases hf
    | some vc =>
    cases hrc : fmt_vals vs' with
    | none => rw [fmt_vals, hvc, hrc] at hf; cases hf
    | some rc =>
    rw [fmt_vals, hvc, hrc] at hf
    injection hf with hf
    subst hf
    cases budget with
    | zero => omega
    | succ b =>
    cases vs' with
    | nil =>
      have hshape : (vc ++ (if ([] : List (Value T)).isEmpty then []
            else ',' :: ' ' :: rc)) ++ cont = vc ++ cont := by
        simp
      rw [sep_by_err_succ, hshape]
      simp only [ih T v vc cont off hokv hvc hdv hb]
      rw [prod_fst_false (skip_spaced_separator ','
        ⟨cont, off + utf8Len vc⟩) (hsepf _)]
      exact pair_toks_eq _ (by simp [utf8Len_append])
    | cons g gs =>
      have hshape : (vc ++ (if (g :: gs).isEmpty then [] else ',' :: ' ' :: rc))
            ++ cont = vc ++ (',' :: ' ' :: (rc ++ cont)) := by
        simp
      have hitem := ih T v vc (',' :: ' ' :: (rc ++ cont)) off hokv hvc hdv
        (num_boundary_comma _)
      have hsep : ∀ o, skip_spaced_separator ','
          ⟨',' :: ' ' :: (rc ++ cont), o⟩ = (true, ⟨rc ++ cont, o + 2⟩) := by
        intro o
        obtain ⟨hc, ho, hco, hw, -⟩ := fmt_vals_head g gs rc hokr hrc
        subst hco
        simp only [skip_spaced_separator,
          skip_whitespace_not_ws (show Char.isWhitespace ',' = false from by decide),
          token_cons_self, List.cons_append,
          skip_whitespace_ws (show Char.isWhitespace ' ' = true from by decide),
          skip_whitespace_not_ws hw]
        exact pair_toks_eq _ (by
          simp [show (Char.utf8Size ',' : Nat) = 1 from rfl,
            show (Char.utf8Size ' ' : Nat) = 1 from rfl])
      have hrec := ihl b rc cont (off + utf8Len vc + 2)
        (by simp) hokr hrc hdr hb hsepf (by omega)
      rw [sep_by_err_succ, hshape]
      simp only [hitem, hsep, hrec, remove_context_vals]
      exact pair_toks_eq _ (by
        simp [utf8Len_append, utf8Len_cons,
          show (Char.utf8Size ',' : Nat) = 1 from rfl,
          show (Char.utf8Size ' ' : Nat) = 1 from rfl]
        omega)

theorem num_boundary_cons (c : Char) (rest : List Char)
    (h : (c.isDigit || c == '_') = false) : num_boundary (c :: rest) = true := by
  simp [num_boundary, h]

/-- `parse_named_composite` inverts a formatted named composite, for any
continuation. -/
theorem rt_named (fuel : Nat) (ih : RTV fuel) {T : Type}
    (fs : List (String × Value T)) (out rest : List Char) (off : Nat)
    (hok : rt_ok_fields fs = true) (hf : fmt_composite (.named fs) = some out)
    (hdep : depth_fields fs ≤ fuel) :
    parse_named_composite (parse_field_name_and_value (parse_value fuel))
      ⟨out ++ rest, off⟩ =
      (.ok (.named (remove_context_fields fs)), ⟨rest, off + utf8Len out⟩) := by
  cases hin : fmt_fields fs with
  | none => rw [fmt_composite, hin] at hf; cases hf
  | some inner =>
    rw [fmt_composite, hin] at hf
    injection hf with hf
    subst hf
    cases fs with
    | nil =>
      rw [fmt_fields] at hin
      injection hin with hin
      subst hin
      simp only [List.cons_append, List.nil_append]
      rw [parse_named_composite]
      simp only [token_cons_self,
        show (lbrace.utf8Size : Nat) = 1 from rfl,
        show (Char.utf8Size ' ' : Nat) = 1 from rfl,
        show (rbrace.utf8Size : Nat) = 1 from rfl,
        skip_whitespace_ws (show Char.isWhitespace ' ' = true from by decide),
        skip_whitespace_not_ws (show Char.isWhitespace rbrace = false from by decide)]
      exact pair_toks_eq _ (by
        simp [utf8Len_cons, utf8Len_nil,
          show (lbrace.utf8Size : Nat) = 1 from rfl,
          show (Char.utf8Size ' ' : Nat) = 1 from rfl,
          show (rbrace.utf8Size : Nat) = 1 from rfl] <;> omega)
    | cons f0 fs0 =>
      rcases f0 with ⟨n0, v0⟩
      obtain ⟨itl, hitl⟩ := fmt_fields_head n0 v0 fs0 inner hok hin
      subst hitl
      have hsf1 : ∀ o, skip_spaced_separator ',' ⟨' ' :: rbrace :: rest, o⟩ =
          (false, ⟨rbrace :: rest, o + 1⟩) := by
        intro o
        simp only [skip_spaced_separator,
          skip_whitespace_ws (show Char.isWhitespace ' ' = true from by decide),
          skip_whitespace_not_ws (show Char.isWhitespace rbrace = false from by decide),
          token_cons_ne (show rbrace ≠ ',' from by decide)]
        exact pair_toks_eq _ (by simp [show (Char.utf8Size ' ' : Nat) = 1 from rfl])
      have hsf : ∀ o, (skip_spaced_separator ',' ⟨' ' :: rbrace :: rest, o⟩).1 = false := by
        intro o; rw [hsf1 o]
      have hlen : ((n0, v0) :: fs0).length ≤
          (dquote :: (itl ++ ' ' :: rbrace :: rest)).length + 1 := by
        have hfl := fmt_fields_length ((n0, v0) :: fs0) (dquote :: itl) hin
        simp [List.length_append] at hfl ⊢
        omega
      have hflds := rt_fields fuel ih ((n0, v0) :: fs0)
        ((dquote :: (itl ++ ' ' :: rbrace :: rest)).length + 1)
        (dquote :: itl) (' ' :: rbrace :: rest) (off + 1 + 1)
        rfl hok hin hdep (num_boundary_cons ' ' _ (by decide)) hsf hlen
      simp only [List.cons_append, List.append_assoc] at hflds
      simp only [List.cons_append, List.nil_append, List.append_assoc]
      rw [parse_named_composite]
      simp only [token_cons_self,
        show (lbrace.utf8Size : Nat) = 1 from rfl,
        show (Char.utf8Size ' ' : Nat) = 1 from rfl,
        show (rbrace.utf8Size : Nat) = 1 from rfl,
        skip_whitespace_ws (show Char.isWhitespace ' ' = true from by decide),
        skip_whitespace_not_ws (show Char.isWhitespace dquote = false from by decide),
        token_cons_ne (show dquote ≠ rbrace from by decide),
        hflds,
        skip_whitespace_not_ws (show Char.isWhitespace rbrace = false from by decide)]
      exact pair_toks_eq _ (by
        simp [utf8Len_append, utf8Len_cons, utf8Len_nil,
          show (Char.utf8Size dquote : Nat) = 1 from rfl,
          show (Char.utf8Size ' ' : Nat) = 1 from rfl,
          show (lbrace.utf8Size : Nat) = 1 from rfl,
          show (rbrace.utf8Size : Nat) = 1 from rfl] <;> omega)

/-- `parse_unnamed_composite` inverts a formatted unnamed composite, for any
continuation. -/
theorem rt_unnamed (fuel : Nat) (ih : RTV fuel) {T : Type}
    (vs : List (Value T)) (out rest : List Char) (off : Nat)
    (hok : rt_ok_vals vs = true) (hf : fmt_composite (.unnamed vs) = some out)
    (hdep : depth_vals vs ≤ fuel) :
    parse_unnamed_composite (parse_value fuel) ⟨out ++ rest, off⟩ =
      (.ok (.unnamed (remove_context_vals vs)), ⟨rest, off + utf8Len out⟩) := by
  cases hin : fmt_vals vs with
  | none => rw [fmt_composite, hin] at hf; cases hf
  | some inner =>
    rw [fmt_composite, hin] at hf
    injection hf with hf
    subst hf
    cases vs with
    | nil =>
      rw [fmt_vals] at hin
      injection hin with hin
      subst hin
      simp only [List.cons_append, List.nil_append]
      rw [parse_unnamed_composite]
      simp only [token_cons_self,
        show (Char.utf8Size '(' : Nat) = 1 from rfl,
        show (Char.utf8Size ')' : Nat) = 1 from rfl,
        skip_whitespace_not_ws (show Char.isWhitespace ')' = false from by decide)]
      exact pair_toks_eq _ (by
        simp [utf8Len_cons, utf8Len_nil,
          show (Char.utf8Size '(' : Nat) = 1 from rfl,
          show (Char.utf8Size ')' : Nat) = 1 from rfl] <;> omega)
    | cons v0 vs0 =>
      obtain ⟨c0, itl, hitl, hw0, hnp0⟩ := fmt_vals_head v0 vs0 inner hok hin
      subst hitl
      have hsf1 : ∀ o, skip_spaced_separator ',' ⟨')' :: rest, o⟩ =
          (false, ⟨')' :: rest, o⟩) := by
        intro o
        simp only [skip_spaced_separator,
          skip_whitespace_not_ws (show Char.isWhitespace ')' = false from by decide),
          token_cons_ne (show ')' ≠ ',' from by decide)]
      have hsf : ∀ o, (skip_spaced_separator ',' ⟨')' :: rest, o⟩).1 = false := by
        intro o; rw [hsf1 o]
      have hlen : (v0 :: vs0).length ≤
          (c0 :: (itl ++ ')' :: rest)).length + 1 := by
        have hfl := fmt_vals_length (v0 :: vs0) (c0 :: itl) hok hin
        simp [List.length_append] at hfl ⊢
        omega
      have hvals := rt_vals fuel ih (v0 :: vs0)
        ((c0 :: (itl ++ ')' :: rest)).length + 1)
        (c0 :: itl) (')' :: rest) (off + 1)
        rfl hok hin hdep (num_boundary_cons ')' _ (by decide)) hsf hlen
      simp only [List.cons_append, List.append_assoc] at hvals
      simp only [List.cons_append, List.nil_append, List.append_assoc]
      rw [parse_unnamed_composite]
      simp only [token_cons_self,
        show (Char.utf8Size '(' : Nat) = 1 from rfl,
        show (Char.utf8Size ')' : Nat) = 1 from rfl,
        skip_whitespace_not_ws hw0,
        token_cons_ne hnp0,
        hvals,
        skip_whitespace_not_ws (show Char.isWhitespace ')' = false from by decide),
        token_cons_ne (show ')' ≠ ',' from by decide)]
      exact pair_toks_eq _ (by
        simp [utf8Len_append, utf8Len_cons, utf8Len_nil,
          show (Char.utf8Size '(' : Nat) = 1 from rfl,
          show (Char.utf8Size ')' : Nat) = 1 from rfl] <;> omega)

/-- The round-trip induction step: if parsing inverts formatting up to depth
`fuel`, it does so up to depth `fuel + 1` (dispatch through the eight
`one_of` arms on the formatted text's first character). -/
theorem rt_step (fuel : Nat) (ih : RTV fuel) : RTV (fuel + 1) := by
  intro T v out rest off hok hf hdep hb
  obtain ⟨h1, h2⟩ := num_boundary_facts hb
  rcases v with ⟨d, ctx⟩
  rw [show rt_ok_value (Value.mk d ctx) = rt_ok_def d from rfl] at hok
  rw [show fmt_value (Value.mk d ctx) = fmt_value_def d from rfl] at hf
  have hdd : depth_def d ≤ fuel := by
    rw [show depth_value (Value.mk d ctx) = 1 + depth_def d from rfl] at hdep
    omega
  rw [show remove_context (Value.mk d ctx) = Value.mk (remove_context_def d) () from rfl]
  cases d with
  | primitive p =>
    rw [show rt_ok_def (T := T) (.primitive p) = prim_rt_ok p from rfl] at hok
    rw [fmt_value_def] at hf
    cases p with
    | bool b =>
      cases b
      · rw [fmt_primitive] at hf
        injection hf with hf
        subst hf
        have ha : arm_bool ⟨"false".toList ++ rest, off⟩ =
            (.ok (Value.bool false), ⟨rest, off + 5⟩) := by
          simp only [arm_bool, parse_bool_false]
        rw [parse_value_succ, value_alternatives, one_of_cons_ok ha]
        exact pair_toks_eq _ (by rw [show utf8Len ("false".toList) = 5 from rfl])
      · rw [fmt_primitive] at hf
        injection hf with hf
        subst hf
        have ha : arm_bool ⟨"true".toList ++ rest, off⟩ =
            (.ok (Value.bool true), ⟨rest, off + 4⟩) := by
          simp only [arm_bool, parse_bool_true]
        rw [parse_value_succ, value_alternatives, one_of_cons_ok ha]
        exact pair_toks_eq _ (by rw [show utf8Len ("true".toList) = 4 from rfl])
    | char c =>
      rw [fmt_primitive] at hf
      injection hf with hf
      subst hf
      have hshape : fmt_char c ++ rest = squote :: (escape_char_seq c ++ squote :: rest) := by
        simp [fmt_char]
      have hc := rt_char c rest off
      rw [hshape] at hc
      have ha : arm_char ⟨squote :: (escape_char_seq c ++ squote :: rest), off⟩ =
          (.ok (Value.char c), ⟨rest, off + utf8Len (fmt_char c)⟩) := by
        simp only [arm_char, hc]
      rw [hshape, parse_value_succ, value_alternatives]
      rw [one_of_cons_nomatch (arm_bool_nomatch (show squote ≠ 't' from by decide)
          (show squote ≠ 'f' from by decide) _ off),
        one_of_cons_ok ha]
      rfl
    | string s =>
      rw [fmt_primitive] at hf
      injection hf with hf
      subst hf
      have hshape : fmt_string s ++ rest = dquote :: (escape_chars s.toList ++ dquote :: rest) := by
        simp [fmt_string]
      have hs := rt_string s rest off
      rw [hshape] at hs
      have ha : arm_string ⟨dquote :: (escape_chars s.toList ++ dquote :: rest), off⟩ =
          (.ok (Value.string s), ⟨rest, off + utf8Len (fmt_string s)⟩) := by
        simp only [arm_string, hs]
      rw [hshape, parse_value_succ, value_alternatives]
      rw [one_of_cons_nomatch (arm_bool_nomatch (show dquote ≠ 't' from by decide)
          (show dquote ≠ 'f' from by decide) _ off),
        one_of_cons_nomatch (arm_char_nomatch (show dquote ≠ squote from by decide) _ off),
        one_of_cons_ok ha]
      rfl
    | u128 n =>
      have hn : n < 2 ^ 128 := by simpa [prim_rt_ok] using hok
      rw [fmt_primitive] at hf
      injection hf with hf
      subst hf
      obtain ⟨hd, hne, -⟩ := nat_decimal_spec n
      obtain ⟨d0, ds, hds⟩ := List.exists_cons_of_ne_nil hne
      have hd0 : d0.isDigit = true := hd d0 (by rw [hds]; simp)
      obtain ⟨ht, hf2, hsq, hdq, -, -, -, -⟩ := isDigit_facts hd0
      have hnum := rt_number_pos n hn rest off h1 h2
      rw [hds] at hnum ⊢
      simp only [List.cons_append] at hnum ⊢
      have ha : arm_number ⟨d0 :: (ds ++ rest), off⟩ =
          (.ok (Value.primitive (.u128 n)), ⟨rest, off + utf8Len (d0 :: ds)⟩) := by
        simp only [arm_number, hnum]
      rw [parse_value_succ, value_alternatives]
      rw [one_of_cons_nomatch (arm_bool_nomatch ht hf2 _ off),
        one_of_cons_nomatch (arm_char_nomatch hsq _ off),
        one_of_cons_nomatch (arm_string_nomatch hdq _ off),
        one_of_cons_ok ha]
      rfl
    | i128 n =>
      have hn : n < 0 ∧ -(2 ^ 127 : Int) ≤ n := by simpa [prim_rt_ok] using hok
      rw [fmt_primitive] at hf
      injection hf with hf
      subst hf
      rw [show int_decimal n = '-' :: nat_decimal n.natAbs from by
        rw [int_decimal, if_pos hn.1]]
      have hm : n.natAbs ≤ 2 ^ 127 := by omega
      have hnum := rt_number_neg n.natAbs hm rest off h1 h2
      have hval : -((n.natAbs : Nat) : Int) = n := by omega
      rw [hval] at hnum
      simp only [List.cons_append]
      have ha : arm_number ⟨'-' :: (nat_decimal n.natAbs ++ rest), off⟩ =
          (.ok (Value.primitive (.i128 n)), ⟨rest, off + (1 + utf8Len (nat_decimal n.natAbs))⟩) := by
        simp only [arm_number, hnum]
      rw [parse_value_succ, value_alternatives]
      rw [one_of_cons_nomatch (arm_bool_nomatch (show ('-' : Char) ≠ 't' from by decide)
          (show ('-' : Char) ≠ 'f' from by decide) _ off),
        one_of_cons_nomatch (arm_char_nomatch (show ('-' : Char) ≠ squote from by decide) _ off),
        one_of_cons_nomatch (arm_string_nomatch (show ('-' : Char) ≠ dquote from by decide) _ off),
        one_of_cons_ok ha]
      exact pair_toks_eq _ (by
        simp [utf8Len_cons, show (Char.utf8Size '-' : Nat) = 1 from rfl] <;> omega)
    | u256 w => exact Bool.noConfusion hok
    | i256 w => exact Bool.noConfusion hok
  | bitSequence bits =>
    rw [fmt_value_def] at hf
    injection hf with hf
    subst hf
    have hshape : fmt_bitsequence bits ++ rest =
        '<' :: (List.map (fun b => if b then '1' else '0') bits ++ '>' :: rest) := by
      simp [fmt_bitsequence]
    have hbs := rt_bitseq bits rest off
    rw [hshape] at hbs
    have ha : arm_bitseq
        ⟨'<' :: (List.map (fun b => if b then '1' else '0') bits ++ '>' :: rest), off⟩ =
        (.ok (Value.bit_sequence bits), ⟨rest, off + utf8Len (fmt_bitsequence bits)⟩) := by
      simp only [arm_bitseq, hbs]
    rw [hshape, parse_value_succ, value_alternatives]
    rw [one_of_cons_nomatch (arm_bool_nomatch (show ('<' : Char) ≠ 't' from by decide)
        (show ('<' : Char) ≠ 'f' from by decide) _ off),
      one_of_cons_nomatch (arm_char_nomatch (show ('<' : Char) ≠ squote from by decide) _ off),
      one_of_cons_nomatch (arm_string_nomatch (show ('<' : Char) ≠ dquote from by decide) _ off),
      one_of_cons_nomatch (arm_number_nomatch (show ('<' : Char) ≠ '+' from by decide)
        (show ('<' : Char) ≠ '-' from by decide)
        (show ('<' : Char).isDigit = false from by decide) _ off),
      one_of_cons_nomatch (arm_named_nomatch (show ('<' : Char) ≠ lbrace from by decide) _ _ off),
      one_of_cons_nomatch (arm_unnamed_nomatch (show ('<' : Char) ≠ '(' from by decide) _ _ off),
      one_of_cons_ok ha]
    rfl
  | composite c =>
    rw [show rt_ok_def (T := T) (.composite c) = rt_ok_composite c from rfl] at hok
    rw [fmt_value_def] at hf
    rw [show depth_def (T := T) (.composite c) = depth_composite c from rfl] at hdd
    cases c with
    | named fs =>
      rw [show rt_ok_composite (T := T) (.named fs) = rt_ok_fields fs from rfl] at hok
      rw [show depth_composite (T := T) (.named fs) = depth_fields fs from rfl] at hdd
      have hbh : ∃ o2, out = lbrace :: o2 := by
        cases hin : fmt_fields fs with
        | none => rw [fmt_composite, hin] at hf; cases hf
        | some inner =>
          rw [fmt_composite, hin] at hf
          injection hf with hf2
          refine ⟨(' ' :: inner) ++ [' ', rbrace], ?_⟩
          rw [← hf2]
          simp
      obtain ⟨o2, ho2⟩ := hbh
      subst ho2
      have hnc := rt_named fuel ih fs (lbrace :: o2) rest off hok hf hdd
      simp only [List.cons_append] at hnc ⊢
      have ha : arm_named (parse_value fuel) ⟨lbrace :: (o2 ++ rest), off⟩ =
          (.ok (Value.mk (.composite (.named (remove_context_fields fs))) ()),
            ⟨rest, off + utf8Len (lbrace :: o2)⟩) := by
        simp only [arm_named, hnc]
      rw [parse_value_succ, value_alternatives]
      rw [one_of_cons_nomatch (arm_bool_nomatch (show lbrace ≠ 't' from by decide)
          (show lbrace ≠ 'f' from by decide) _ off),
        one_of_cons_nomatch (arm_char_nomatch (show lbrace ≠ squote from by decide) _ off),
        one_of_cons_nomatch (arm_string_nomatch (show lbrace ≠ dquote from by decide) _ off),
        one_of_cons_nomatch (arm_number_nomatch (show lbrace ≠ '+' from by decide)
          (show lbrace ≠ '-' from by decide)
          (show lbrace.isDigit = false from by decide) _ off),
        one_of_cons_ok ha]
      rfl
    | unnamed vs =>
      rw [show rt_ok_composite (T := T) (.unnamed vs) = rt_ok_vals vs from rfl] at hok
      rw [show depth_composite (T := T) (.unnamed vs) = depth_vals vs from rfl] at hdd
      have hbh : ∃ o2, out = '(' :: o2 := by
        cases hin : fmt_vals vs with
        | none => rw [fmt_composite, hin] at hf; cases hf
        | some inner =>
          rw [fmt_composite, hin] at hf
          injection hf with hf2
          refine ⟨inner ++ [')'], ?_⟩
          rw [← hf2]
          simp
      obtain ⟨o2, ho2⟩ := hbh
      subst ho2
      have hnc := rt_unnamed fuel ih vs ('(' :: o2) rest off hok hf hdd
      simp only [List.cons_append] at hnc ⊢
      have ha : arm_unnamed (parse_value fuel) ⟨'(' :: (o2 ++ rest), off⟩ =
          (.ok (Value.mk (.composite (.unnamed (remove_context_vals vs))) ()),
            ⟨rest, off + utf8Len ('(' :: o2)⟩) := by
        simp only [arm_unnamed, hnc]
      rw [parse_value_succ, value_alternatives]
      rw [one_of_cons_nomatch (arm_bool_nomatch (show ('(' : Char) ≠ 't' from by decide)
          (show ('(' : Char) ≠ 'f' from by decide) _ off),
        one_of_cons_nomatch (arm_char_nomatch (show ('(' : Char) ≠ squote from by decide) _ off),
        one_of_cons_nomatch (arm_string_nomatch (show ('(' : Char) ≠ dquote from by decide) _ off),
        one_of_cons_nomatch (arm_number_nomatch (show ('(' : Char) ≠ '+' from by decide)
          (show ('(' : Char) ≠ '-' from by decide)
          (show ('(' : Char).isDigit = false from by decide) _ off),
        one_of_cons_nomatch (arm_named_nomatch (show ('(' : Char) ≠ lbrace from by decide) _ _ off),
        one_of_cons_ok ha]
      rfl
  | variant name values =>
    rw [show rt_ok_def (T := T) (.variant name values) =
        (!name.isEmpty && rt_ok_composite values) from rfl] at hok
    rw [Bool.and_eq_true_iff] at hok
    obtain ⟨hne0, hokc⟩ := hok
    have hnn : name.isEmpty = false := by simpa using hne0
    rw [show depth_def (T := T) (.variant name values) = depth_composite values from rfl] at hdd
    cases hbody : fmt_composite values with
    | none => rw [fmt_value_def, hbody] at hf; cases hf
    | some body =>
      rw [fmt_value_def, hbody] at hf
      injection hf with hf
      rw [fmt_variant_name_nonempty hnn] at hf
      subst hf
      simp only [List.cons_append, List.append_assoc]
      cases values with
      | named fs =>
        rw [show rt_ok_composite (T := T) (.named fs) = rt_ok_fields fs from rfl] at hokc
        rw [show depth_composite (T := T) (.named fs) = depth_fields fs from rfl] at hdd
        have hbh : ∃ o2, body = lbrace :: o2 := by
          cases hin : fmt_fields fs with
          | none => rw [fmt_composite, hin] at hbody; cases hbody
          | some inner =>
            rw [fmt_composite, hin] at hbody
            injection hbody with hb2
            refine ⟨(' ' :: inner) ++ [' ', rbrace], ?_⟩
            rw [← hb2]
            simp
        obtain ⟨o2, ho2⟩ := hbh
        subst ho2
        simp only [List.cons_append, List.append_assoc]
        have hstr := rt_string name (lbrace :: (o2 ++ rest)) (off + 1)
        have hpi : parse_i_string ⟨'v' :: (fmt_string name ++ lbrace :: (o2 ++ rest)), off⟩ =
            (some name, ⟨lbrace :: (o2 ++ rest), off + 1 + utf8Len (fmt_string name)⟩) := by
          rw [parse_i_string]
          simp [Toks.next, hstr, show (Char.utf8Size 'v' : Nat) = 1 from rfl]
        have hpov : parse_optional_variant_ident
            ⟨'v' :: (fmt_string name ++ lbrace :: (o2 ++ rest)), off⟩ =
            (some name, ⟨lbrace :: (o2 ++ rest), off + 1 + utf8Len (fmt_string name)⟩) := by
          rw [parse_optional_variant_ident]
          simp only [hpi]
        have hnc := rt_named fuel ih fs (lbrace :: o2) rest
          (off + 1 + utf8Len (fmt_string name)) hokc hbody hdd
        simp only [List.cons_append] at hnc
        have hpv : parse_variant
            (parse_named_composite (parse_field_name_and_value (parse_value fuel)))
            (parse_unnamed_composite (parse_value fuel))
            ⟨'v' :: (fmt_string name ++ lbrace :: (o2 ++ rest)), off⟩ =
            (.ok (name, .named (remove_context_fields fs)),
              ⟨rest, off + 1 + utf8Len (fmt_string name) + utf8Len (lbrace :: o2)⟩) := by
          rw [parse_variant]
          simp only [hpov,
            skip_whitespace_not_ws (show Char.isWhitespace lbrace = false from by decide),
            one_of_cons_ok hnc]
        have ha : arm_variant (parse_value fuel)
            ⟨'v' :: (fmt_string name ++ lbrace :: (o2 ++ rest)), off⟩ =
            (.ok (Value.mk (.variant name (.named (remove_context_fields fs))) ()),
              ⟨rest, off + 1 + utf8Len (fmt_string name) + utf8Len (lbrace :: o2)⟩) := by
          simp only [arm_variant, hpv]
        rw [parse_value_succ, value_alternatives]
        rw [one_of_cons_nomatch (arm_bool_nomatch (show ('v' : Char) ≠ 't' from by decide)
            (show ('v' : Char) ≠ 'f' from by decide) _ off),
          one_of_cons_nomatch (arm_char_nomatch (show ('v' : Char) ≠ squote from by decide) _ off),
          one_of_cons_nomatch (arm_string_nomatch (show ('v' : Char) ≠ dquote from by decide) _ off),
          one_of_cons_nomatch (arm_number_nomatch (show ('v' : Char) ≠ '+' from by decide)
            (show ('v' : Char) ≠ '-' from by decide)
            (show ('v' : Char).isDigit = false from by decide) _ off),
          one_of_cons_nomatch (arm_named_nomatch (show ('v' : Char) ≠ lbrace from by decide) _ _ off),
          one_of_cons_nomatch (arm_unnamed_nomatch (show ('v' : Char) ≠ '(' from by decide) _ _ off),
          one_of_cons_nomatch (arm_bitseq_nomatch (show ('v' : Char) ≠ '<' from by decide) _ off),
          one_of_cons_ok ha]
        exact pair_toks_eq _ (by
          simp [utf8Len_append, utf8Len_cons,
            show (Char.utf8Size 'v' : Nat) = 1 from rfl] <;> omega)
      | unnamed vs =>
        rw [show rt_ok_composite (T := T) (.unnamed vs) = rt_ok_vals vs from rfl] at hokc
        rw [show depth_composite (T := T) (.unnamed vs) = depth_vals vs from rfl] at hdd
        have hbh : ∃ o2, body = '(' :: o2 := by
          cases hin : fmt_vals vs with
          | none => rw [fmt_composite, hin] at hbody; cases hbody
          | some inner =>
            rw [fmt_composite, hin] at hbody
            injection hbody with hb2
            refine ⟨inner ++ [')'], ?_⟩
            rw [← hb2]
            simp
        obtain ⟨o2, ho2⟩ := hbh
        subst ho2
        simp only [List.cons_append, List.append_assoc]
        have hstr := rt_string name ('(' :: (o2 ++ rest)) (off + 1)
        have hpi : parse_i_string ⟨'v' :: (fmt_string name ++ '(' :: (o2 ++ rest)), off⟩ =
            (some name, ⟨'(' :: (o2 ++ rest), off + 1 + utf8Len (fmt_string name)⟩) := by
          rw [parse_i_string]
          simp [Toks.next, hstr, show (Char.utf8Size 'v' : Nat) = 1 from rfl]
        have hpov : parse_optional_variant_ident
            ⟨'v' :: (fmt_string name ++ '(' :: (o2 ++ rest)), off⟩ =
            (some name, ⟨'(' :: (o2 ++ rest), off + 1 + utf8Len (fmt_string name)⟩) := by
          rw [parse_optional_variant_ident]
          simp only [hpi]
        have hnc := rt_unnamed fuel ih vs ('(' :: o2) rest
          (off + 1 + utf8Len (fmt_string name)) hokc hbody hdd
        simp only [List.cons_append] at hnc
        have hpv : parse_variant
            (parse_named_composite (parse_field_name_and_value (parse_value fuel)))
            (parse_unnamed_composite (parse_value fuel))
            ⟨'v' :: (fmt_string name ++ '(' :: (o2 ++ rest)), off⟩ =
            (.ok (name, .unnamed (remove_context_vals vs)),
              ⟨rest, off + 1 + utf8Len (fmt_string name) + utf8Len ('(' :: o2)⟩) := by
          rw [parse_variant]
          simp only [hpov,
            skip_whitespace_not_ws (show Char.isWhitespace '(' = false from by decide),
            one_of_cons_nomatch (parse_named_composite_nomatch
              (show ('(' : Char) ≠ lbrace from by decide) _ _ _),
            one_of_cons_ok hnc]
        have ha : arm_variant (parse_value fuel)
            ⟨'v' :: (fmt_string name ++ '(' :: (o2 ++ rest)), off⟩ =
            (.ok (Value.mk (.variant name (.unnamed (remove_context_vals vs))) ()),
              ⟨rest, off + 1 + utf8Len (fmt_string name) + utf8Len ('(' :: o2)⟩) := by
          simp only [arm_variant, hpv]
        rw [parse_value_succ, value_alternatives]
        rw [one_of_cons_nomatch (arm_bool_nomatch (show ('v' : Char) ≠ 't' from by decide)
            (show ('v' : Char) ≠ 'f' from by decide) _ off),
          one_of_cons_nomatch (arm_char_nomatch (show ('v' : Char) ≠ squote from by decide) _ off),
          one_of_cons_nomatch (arm_string_nomatch (show ('v' : Char) ≠ dquote from by decide) _ off),
          one_of_cons_nomatch (arm_number_nomatch (show ('v' : Char) ≠ '+' from by decide)
            (show ('v' : Char) ≠ '-' from by decide)
            (show ('v' : Char).isDigit = false from by decide) _ off),
          one_of_cons_nomatch (arm_named_nomatch (show ('v' : Char) ≠ lbrace from by decide) _ _ off),
          one_of_cons_nomatch (arm_unnamed_nomatch (show ('v' : Char) ≠ '(' from by decide) _ _ off),
          one_of_cons_nomatch (arm_bitseq_nomatch (show ('v' : Char) ≠ '<' from by decide) _ off),
          one_of_cons_ok ha]
        exact pair_toks_eq _ (by
          simp [utf8Len_append, utf8Len_cons,
            show (Char.utf8Size 'v' : Nat) = 1 from rfl] <;> omega)

/-- The round-trip property holds at every fuel (at fuel `0` vacuously:
every value has positive depth). -/
theorem rt_all : ∀ fuel, RTV fuel := by
  intro fuel
  induction fuel with
  | zero =>
    intro T v out rest off hok hf hdep hb
    rcases v with ⟨d, ctx⟩
    rw [show depth_value (Value.mk d ctx) = 1 + depth_def d from rfl] at hdep
    omega
  | succ n ihn => exact rt_step n ihn

/-- The nesting depth of a formattable value is bounded by the length of its
formatted text (so `from_str`'s fuel of `length + 1` always suffices). -/
theorem depth_le_fmt_length {T : Type} (v : Value T) :
    ∀ out, fmt_value v = some out → depth_value v ≤ out.length := by
  refine value_ind_v
    (fun v => ∀ out, fmt_value v = some out → depth_value v ≤ out.length)
    (fun d => ∀ out, fmt_value_def d = some out → 1 + depth_def d ≤ out.length)
    (fun c => ∀ out, fmt_composite c = some out → 1 + depth_composite c ≤ out.length)
    (fun fs => ∀ inner, fmt_fields fs = some inner → depth_fields fs ≤ inner.length + 1)
    (fun vs => ∀ inner, fmt_vals vs = some inner → depth_vals vs ≤ inner.length + 1)
    ?_ ?_ ?_ ?_ ?_ ?_ ?_ ?_ ?_ ?_ ?_ v
  · intro d ctx ih out hf
    rw [show fmt_value (Value.mk d ctx) = fmt_value_def d from rfl] at hf
    rw [show depth_value (Value.mk d ctx) = 1 + depth_def d from rfl]
    exact ih out hf
  · intro c ih out hf
    rw [fmt_value_def] at hf
    exact ih out hf
  · intro name c ih out hf
    cases hbd : fmt_composite c with
    | none => rw [fmt_value_def, hbd] at hf; cases hf
    | some body =>
      rw [fmt_value_def, hbd] at hf
      injection hf with hf
      subst hf
      have hc2 := ih body hbd
      rw [show depth_def (ValueDef.variant name c) = depth_composite c from rfl]
      simp only [List.length_append]
      omega
  · intro bs out hf
    rw [fmt_value_def] at hf
    injection hf with hf
    subst hf
    rw [show depth_def (T := T) (.bitSequence bs) = 0 from rfl]
    simp [fmt_bitsequence] <;> omega
  · intro p out hf
    rw [fmt_value_def] at hf
    rw [show depth_def (T := T) (.primitive p) = 0 from rfl]
    cases p with
    | bool b =>
      cases b <;> (rw [fmt_primitive] at hf; injection hf with hf; subst hf; decide)
    | char c =>
      rw [fmt_primitive] at hf
      injection hf with hf
      subst hf
      simp [fmt_char] <;> omega
    | string s =>
      rw [fmt_primitive] at hf
      injection hf with hf
      subst hf
      simp [fmt_string] <;> omega
    | u128 n =>
      rw [fmt_primitive] at hf
      injection hf with hf
      subst hf
      obtain ⟨-, hne, -⟩ := nat_decimal_spec n
      have := List.length_pos.mpr hne
      omega
    | i128 n =>
      rw [fmt_primitive] at hf
      injection hf with hf
      subst hf
      rw [int_decimal]
      obtain ⟨-, hne1, -⟩ := nat_decimal_spec n.natAbs
      obtain ⟨-, hne2, -⟩ := nat_decimal_spec n.toNat
      have g1 := List.length_pos.mpr hne1
      have g2 := List.length_pos.mpr hne2
      split_ifs <;> simp <;> omega
    | u256 w => rw [fmt_primitive] at hf; cases hf
    | i256 w => rw [fmt_primitive] at hf; cases hf
  · intro fs ih out hf
    cases hin : fmt_fields fs with
    | none => rw [fmt_composite, hin] at hf; cases hf
    | some inner =>
      rw [fmt_composite, hin] at hf
      injection hf with hf
      subst hf
      have hc2 := ih inner hin
      rw [show depth_composite (Composite.named fs) = depth_fields fs from rfl]
      simp only [List.length_append, List.length_cons]
      omega
  · intro vs ih out hf
    cases hin : fmt_vals vs with
    | none => rw [fmt_composite, hin] at hf; cases hf
    | some inner =>
      rw [fmt_composite, hin] at hf
      injection hf with hf
      subst hf
      have hc2 := ih inner hin
      rw [show depth_composite (Composite.unnamed vs) = depth_vals vs from rfl]
      simp only [List.length_append, List.length_cons]
      omega
  · intro inner hf
    injection hf with hf
    subst hf
    simp [depth_fields]
  · intro n v' fs' ihv ihr inner hf
    cases hvc : fmt_value v' with
    | none => rw [fmt_fields, hvc] at hf; cases hf
    | some vc =>
      cases hrc : fmt_fields fs' with
      | none => rw [fmt_fields, hvc, hrc] at hf; cases hf
      | some rc =>
        rw [fmt_fields, hvc, hrc] at hf
        injection hf with hf
        subst hf
        have g1 := ihv vc hvc
        have g2 := ihr rc hrc
        rw [depth_fields]
        cases fs' with
        | nil => simp [List.length_append, depth_fields] <;> omega
        | cons x xs => simp [List.length_append] <;> omega
  · intro inner hf
    injection hf with hf
    subst hf
    simp [depth_vals]
  · intro v' vs' ihv ihr inner hf
    cases hvc : fmt_value v' with
    | none => rw [fmt_vals, hvc] at hf; cases hf
    | some vc =>
      cases hrc : fmt_vals vs' with
      | none => rw [fmt_vals, hvc, hrc] at hf; cases hf
      | some rc =>
        rw [fmt_vals, hvc, hrc] at hf
        injection hf with hf
        subst hf
        have g1 := ihv vc hvc
        have g2 := ihr rc hrc
        rw [depth_vals]
        cases vs' with
        | nil => simp [List.length_append, depth_vals] <;> omega
        | cons x xs => simp [List.length_append] <;> omega

/-! ## C2: the formatter fails exactly on values containing a 256-bit
primitive -/

theorem fmt_primitive_none_iff (p : Primitive) :
    fmt_primitive p = none ↔ prim_is_256 p = true := by
  cases p with
  | bool b => cases b <;> simp [fmt_primitive, prim_is_256]
  | char c => simp [fmt_primitive, prim_is_256]
  | string s => simp [fmt_primitive, prim_is_256]
  | u128 n => simp [fmt_primitive, prim_is_256]
  | i128 n => simp [fmt_primitive, prim_is_256]
  | u256 b => simp [fmt_primitive, prim_is_256]
  | i256 b => simp [fmt_primitive, prim_is_256]

theorem fmt_value_none_iff_has_256 {T : Type} (v : Value T) :
    fmt_value v = none ↔ has_256_value v = true := by
  refine value_ind_v
    (fun v => fmt_value v = none ↔ has_256_value v = true)
    (fun d => fmt_value_def d = none ↔ has_256_def d = true)
    (fun c => fmt_composite c = none ↔ has_256_composite c = true)
    (fun fs => fmt_fields fs = none ↔ has_256_fields fs = true)
    (fun vs => fmt_vals vs = none ↔ has_256_vals vs = true)
    ?_ ?_ ?_ ?_ ?_ ?_ ?_ ?_ ?_ ?_ ?_ v
  · intro d ctx ih
    simpa [fmt_value, has_256_value] using ih
  · intro c ih
    simpa [fmt_value_def, has_256_def] using ih
  · intro name c ih
    rw [show has_256_def (ValueDef.variant name c) = has_256_composite c from rfl, ← ih]
    cases h : fmt_composite c <;> simp [fmt_value_def, h]
  · intro bs
    simp [fmt_value_def, has_256_def]
  · intro p
    simpa [fmt_value_def, has_256_def] using fmt_primitive_none_iff p
  · intro fs ih
    rw [show has_256_composite (Composite.named fs) = has_256_fields fs from rfl, ← ih]
    cases h : fmt_fields fs <;> simp [fmt_composite, h]
  · intro vs ih
    rw [show has_256_composite (Composite.unnamed vs) = has_256_vals vs from rfl, ← ih]
    cases h : fmt_vals vs <;> simp [fmt_composite, h]
  · simp [fmt_fields, has_256_fields]
  · intro n v' rest ihv ihr
    rw [has_256_fields, Bool.or_eq_true, ← ihv, ← ihr]
    cases h1 : fmt_value v' <;> cases h2 : fmt_fields rest <;> simp [fmt_fields, h1, h2]
  · simp [fmt_vals, has_256_vals]
  · intro v' rest ihv ihr
    rw [has_256_vals, Bool.or_eq_true, ← ihv, ← ihr]
    cases h1 : fmt_value v' <;> cases h2 : fmt_vals rest <;> simp [fmt_vals, h1, h2]

/-- C2: `format` fails exactly when the value contains a `U256`/`I256`
primitive anywhere inside it, however deeply nested — so it succeeds for
every value not containing one, and signals the unsupported-primitive
condition (`none`) whenever one occurs. -/
theorem claim_C2_format_unsupported_primitive {T : Type} (v : Value T) :
    format v = none ↔ has_256_value v = true := by
  rw [← fmt_value_none_iff_has_256]
  cases h : fmt_value v <;> simp [format, h]

/-! ## Main theorems

The properties of the parser and formatter established by this
development, with concrete instantiations and counterexamples. -/

/-- C1 (counterexample): `Value::int(5)` contains no 256-bit primitive, yet
formatting it yields `5`, which parses back as the *unsigned* `uint 5`, not
`int 5` — the round trip does not return the original value. -/
theorem claim_C1_counterexample :
    has_256_value (Value.int 5) = false ∧
    format (Value.int 5) = some "5" ∧
    from_str "5" = (.ok (Value.uint 5), "") ∧
    Value.uint 5 ≠ Value.int 5 := by
  refine ⟨rfl, rfl, rfl, ?_⟩
  intro h
  rw [Value.uint, Value.int] at h
  injection h with h1 h2
  injection h1 with h3
  exact Primitive.noConfusion h3

/-- C1 (amended): the round trip holds for every *round-trippable* value —
one whose primitives fit their machine widths, whose `I128`s are negative
(a non-negative `I128` formats unsigned and reparses as `U128`), and whose
variant and field names are all nonempty (`is_ident` accepts `""`, so empty
names are written unquoted and cannot be parsed back): formatting such a
value and parsing the text back returns exactly the value with its context
erased, with no text remaining. -/
theorem claim_C1_roundtrip {T : Type} (v : Value T) (s : String)
    (hok : rt_ok_value v = true) (hf : format v = some s) :
    from_str s = (.ok (remove_context v), "") := by
  cases hfm : fmt_value v with
  | none => rw [format, hfm] at hf; cases hf
  | some out =>
    rw [format, hfm] at hf
    injection hf with hf
    subst hf
    have hdep := depth_le_fmt_length v out hfm
    have hrt := rt_all (out.length + 1) T v out [] 0 hok hfm (by omega) rfl
    rw [List.append_nil] at hrt
    rw [from_str]
    rw [show (String.mk out).toList = out from rfl]
    simp only [hrt]

/-- C1 witness: a named composite holding a negative integer round-trips. -/
theorem claim_C1_roundtrip_witness :
    rt_ok_value (Value.mk (.composite (.named [("a", Value.int (-5))])) ()) = true ∧
    format (Value.mk (.composite (.named [("a", Value.int (-5))])) ()) =
      some "\x7b \x22a\x22: -5 \x7d" ∧
    from_str "\x7b \x22a\x22: -5 \x7d" =
      (.ok (remove_context (Value.mk (.composite (.named [("a", Value.int (-5))])) ())), "") :=
  ⟨rfl, rfl, claim_C1_roundtrip _ _ rfl rfl⟩

/-- C3 (code bug): the spec's identifier predicate accepts `hello`, but the
code's `is_ident` (whose own doc comment promises agreement with
`parse_ident`) rejects every nonempty name because of a misparenthesised
condition — so `hello` is rendered quoted (`\x7b "hello": true \x7d`) — and
accepts the empty name, which the spec's predicate rejects, rendering it
unquoted. -/
theorem claim_C3_field_name_quoting :
    spec_is_ident "hello" = true ∧
    is_ident "hello" = false ∧
    fmt_composite (Composite.named [("hello", Value.bool true)]) =
      some (lbrace :: ' ' :: dquote :: 'h' :: 'e' :: 'l' :: 'l' :: 'o' :: dquote ::
        ':' :: ' ' :: 't' :: 'r' :: 'u' :: 'e' :: ' ' :: [rbrace]) ∧
    is_ident "" = true ∧
    spec_is_ident "" = false ∧
    fmt_field_name "" = [] := by
  refine ⟨by decide, by decide, rfl, by decide, by decide, by decide⟩

/-- C4 (counterexample): the missing-closer errors are *not* anchored at the
opening delimiter's offset: for `<01` the error starts at offset 3 (not 0),
for `\x7b a: 1` it starts at offset 6 (not 0); the opening offset appears
only in the error payload. -/
theorem claim_C4_counterexample :
    from_str (String.mk ['<', '0', '1']) =
      (.error ⟨3, some 4, .bitSequence (.expectedClosingBracketToMatch 0)⟩, "") ∧
    (3 : Nat) ≠ 0 ∧
    from_str (String.mk (lbrace :: " a: 1".toList)) =
      (.error ⟨6, some 7, .complex (.expectedCloserToMatch rbrace 0)⟩, "") ∧
    (6 : Nat) ≠ 0 := by
  exact ⟨rfl, by decide, rfl, by decide⟩

/-- C4 (amended): when a named composite's closing `\x7d` (resp. a bit
sequence's closing `>`) is missing, the parser returns a hard error anchored
one character wide at the offset where the closer was expected, carrying the
opening delimiter's offset inside the error payload. -/
theorem claim_C4_missing_closer_errors :
    (∀ bits rest off, (∀ b ∈ bits, b = '0' ∨ b = '1') →
      head_not_sat (fun c => c = '0' || c = '1') rest = true →
      head_not '>' rest = true →
      parse_bit_sequence ⟨'<' :: (bits ++ rest), off⟩ =
        (.error (some ((ParseBitSequenceError.expectedClosingBracketToMatch off).between
          (off + 1 + utf8Len bits) (off + 1 + utf8Len bits + 1))),
          ⟨rest, off + 1 + utf8Len bits⟩)) ∧
    (∀ pf rest0 off vals t3,
      head_not rbrace (skip_whitespace ⟨rest0, off + 1⟩).s = true →
      sep_by_err pf (fun t => skip_spaced_separator ',' t)
        ((skip_whitespace ⟨rest0, off + 1⟩).s.length + 1)
        (skip_whitespace ⟨rest0, off + 1⟩) = (.ok vals, t3) →
      head_not rbrace (skip_whitespace t3).s = true →
      parse_named_composite pf ⟨lbrace :: rest0, off⟩ =
        (.error (some ((ParseComplexError.expectedCloserToMatch rbrace off).at_one
          (skip_whitespace t3).off)), skip_whitespace t3)) := by
  constructor
  · exact fun bits rest off hb h0 hg => parse_bit_sequence_missing_close bits rest off hb h0 hg
  · exact fun pf rest0 off vals t3 hne hsep hcl =>
      parse_named_composite_missing_close pf rest0 off vals t3 hne hsep hcl

/-- C4 witness: both halves at their concrete inputs `<01` and `\x7b a: 1`. -/
theorem claim_C4_missing_closer_errors_witness :
    parse_bit_sequence ⟨'<' :: (['0', '1'] ++ []), 0⟩ =
      (.error (some ((ParseBitSequenceError.expectedClosingBracketToMatch 0).between 3 4)),
        ⟨[], 3⟩) ∧
    parse_named_composite (parse_field_name_and_value (parse_value 1))
        ⟨lbrace :: " a: 1".toList, 0⟩ =
      (.error (some ((ParseComplexError.expectedCloserToMatch rbrace 0).at_one 6)), ⟨[], 6⟩) := by
  constructor
  · have h := claim_C4_missing_closer_errors.1 ['0', '1'] [] 0
      (by decide) (by decide) (by decide)
    simpa using h
  · have h := claim_C4_missing_closer_errors.2
      (parse_field_name_and_value (parse_value 1)) " a: 1".toList 0
      [("a", Value.uint 1)] ⟨[], 6⟩ (by decide) rfl (by decide)
    simpa using h

/-- C5 (counterexample): `Foo` parses a variant name but no composite
follows; the variant rule yields a *no-match* (the whole value position then
fails with `ExpectedValue` at offset 0 and consumes nothing), not a hard
error like the composite's own. -/
theorem claim_C5_counterexample :
    from_str "Foo" = (.error ⟨0, none, .expectedValue⟩, "Foo") ∧
    parse_variant (parse_named_composite (parse_field_name_and_value (parse_value 1)))
        (parse_unnamed_composite (parse_value 1)) ⟨"Foo".toList, 0⟩ =
      (.error none, ⟨[], 3⟩) := by
  exact ⟨rfl, rfl⟩

/-- C5 (amended): with no identifier or `v`-prefixed string present the
variant rule is a no-match with nothing consumed; once a name is parsed, a
missing composite payload (neither `\x7b` nor `(` follows) is again a
*no-match* (cursor left after the name and whitespace), while a composite
that opens but is malformed propagates its hard error verbatim. -/
theorem claim_C5_variant_outcomes :
    (∀ pnc puc t, (parse_optional_variant_ident t).1 = none →
      parse_variant pnc puc t = (.error none, t)) ∧
    (∀ pf pv t t1 name, parse_optional_variant_ident t = (some name, t1) →
      head_not lbrace (skip_whitespace t1).s = true →
      head_not '(' (skip_whitespace t1).s = true →
      parse_variant (parse_named_composite pf) (parse_unnamed_composite pv) t =
        (.error none, skip_whitespace t1)) ∧
    (∀ pnc puc t t1 t' name e, parse_optional_variant_ident t = (some name, t1) →
      pnc (skip_whitespace t1) = (.error (some e), t') →
      parse_variant pnc puc t = (.error (some e), t')) := by
  refine ⟨fun pnc puc t h => parse_variant_no_ident pnc puc t h,
    fun pf pv t t1 name hid hb hp => parse_variant_ident_no_composite pf pv t t1 name hid hb hp,
    fun pnc puc t t1 t' name e hid herr =>
      parse_variant_composite_error pnc puc t t1 t' name e hid herr⟩

/-- C5 witness: the three parts at concrete inputs `1`, `Foo`, and
`Foo\x7b`. -/
theorem claim_C5_variant_outcomes_witness :
    parse_variant (parse_named_composite (parse_field_name_and_value (parse_value 1)))
        (parse_unnamed_composite (parse_value 1)) ⟨['1'], 0⟩ = (.error none, ⟨['1'], 0⟩) ∧
    parse_variant (parse_named_composite (parse_field_name_and_value (parse_value 1)))
        (parse_unnamed_composite (parse_value 1)) ⟨"Foo".toList, 0⟩ =
      (.error none, ⟨[], 3⟩) ∧
    parse_variant (parse_named_composite (parse_field_name_and_value (parse_value 1)))
        (parse_unnamed_composite (parse_value 1)) ⟨"Foo".toList ++ [lbrace], 0⟩ =
      (.error (some (ParseComplexError.invalidStartingCharacterInIdent.at_one 4)), ⟨[], 4⟩) := by
  refine ⟨?_, ?_, ?_⟩
  · exact claim_C5_variant_outcomes.1 _ _ _ (by decide)
  · have h := claim_C5_variant_outcomes.2.1 (parse_field_name_and_value (parse_value 1))
      (parse_value 1) ⟨"Foo".toList, 0⟩ ⟨[], 3⟩ "Foo" (by decide) (by decide) (by decide)
    simpa using h
  · have h := claim_C5_variant_outcomes.2.2
      (parse_named_composite (parse_field_name_and_value (parse_value 1)))
      (parse_unnamed_composite (parse_value 1)) ⟨"Foo".toList ++ [lbrace], 0⟩ ⟨[lbrace], 3⟩
      ⟨[], 4⟩ "Foo" (ParseComplexError.invalidStartingCharacterInIdent.at_one 4)
      (by decide) rfl
    simpa using h

/-- C6 (counterexample): in `1__2` the second `_` does not directly follow a
digit, yet the whole input is consumed as one digit run and parses to 12 with
nothing remaining. -/
theorem claim_C6_counterexample :
    from_str "1__2" = (.ok (.mk (.primitive (.u128 12)) ()), "") := rfl

/-- C6 (amended): an `_` is consumed as a separator exactly when at least one
digit has been consumed earlier in the run (not necessarily immediately
before); a leading underscore is not consumed (no-match, nothing consumed);
the consumed digits with all separators stripped form the parsed integer. -/
theorem claim_C6_number_separators :
    (∀ rest off, parse_number ⟨'_' :: rest, off⟩ = (.error none, ⟨'_' :: rest, off⟩)) ∧
    (∀ d1 us d2 rest off, (∀ c ∈ d1, c.isDigit = true) → d1 ≠ [] →
      (∀ c ∈ us, c = '_') → (∀ c ∈ d2, c.isDigit = true) →
      head_not_digit rest = true → head_not '_' rest = true →
      digits_to_nat (d1 ++ d2) < 2 ^ 128 →
      parse_number ⟨d1 ++ us ++ d2 ++ rest, off⟩ =
        (.ok (.u128 (digits_to_nat (d1 ++ d2))),
          ⟨rest, off + utf8Len (d1 ++ us ++ d2)⟩)) := by
  constructor
  · exact fun rest off => parse_number_nomatch (by decide) (by decide) (by decide) rest off
  · exact fun d1 us d2 rest off h1 h1n hu h2 hr hru hv =>
      parse_number_separator_runs d1 us d2 rest off h1 h1n hu h2 hr hru hv

/-- C6 witness: a leading underscore before `1` is not consumed; `1__2`
consumes everything and parses to 12. -/
theorem claim_C6_number_separators_witness :
    parse_number ⟨'_' :: ['1'], 0⟩ = (.error none, ⟨'_' :: ['1'], 0⟩) ∧
    parse_number ⟨['1'] ++ ['_', '_'] ++ ['2'] ++ [], 0⟩ =
      (.ok (.u128 12), ⟨[], 4⟩) := by
  constructor
  · exact claim_C6_number_separators.1 ['1'] 0
  · have h := claim_C6_number_separators.2 ['1'] ['_', '_'] ['2'] [] 0
      (by decide) (by decide) (by decide) (by decide) (by decide) (by decide) (by decide)
    simpa using h

/-- C7: at each value position the parser is exactly the spec's ordered
dispatch over the alternatives bool, char, string, number, named composite,
unnamed composite, bit sequence, variant — committing to the first outcome
that is not a no-match, and failing with "expected a value" anchored at the
current offset (no end offset) when every alternative is a no-match. -/
theorem claim_C7_ordered_dispatch (fuel : Nat) (t : Toks) :
    parse_value (fuel + 1) t =
      dispatch_alternatives
        [arm_bool, arm_char, arm_string, arm_number,
          arm_named (parse_value fuel), arm_unnamed (parse_value fuel),
          arm_bitseq, arm_variant (parse_value fuel)] t := by
  rw [parse_value_succ]
  exact one_of_eq_dispatch _ t

/-- C8: a consumed sign with no digit after it is a hard "expected digit"
error spanning exactly one character starting one past the sign; in
particular `-abc` yields that error spanning offsets 1 to 2. -/
theorem claim_C8_sign_requires_digit :
    (∀ sign rest off, sign = '+' ∨ sign = '-' → head_not_digit rest = true →
      parse_number ⟨sign :: rest, off⟩ =
        (.error (some (ParseNumberError.expectedDigit.between (off + 1) (off + 2))),
          ⟨rest, off + 1⟩)) ∧
    from_str "-abc" = (.error ⟨1, some 2, .number .expectedDigit⟩, "abc") := by
  exact ⟨fun sign rest off hs hd => parse_number_sign_no_digit sign hs rest hd off, rfl⟩

/-- C8 witness: the general half at the concrete input `-abc`. -/
theorem claim_C8_sign_requires_digit_witness :
    parse_number ⟨'-' :: "abc".toList, 0⟩ =
      (.error (some (ParseNumberError.expectedDigit.between 1 2)), ⟨"abc".toList, 1⟩) := by
  have h := claim_C8_sign_requires_digit.1 '-' "abc".toList 0 (Or.inr rfl) (by decide)
  simpa using h

/-- C9 (counterexample): parsing `'a` (opening quote, `a`, end of input)
yields a char error with start offset 2 and end offset 3 — not anchored at
the opening quote's offset 0, and not with end offset 2; the opening quote's
offset appears only in the payload. -/
theorem claim_C9_counterexample :
    from_str (String.mk [squote, 'a']) =
      (.error ⟨2, some 3, .char (.expectedClosingQuoteToMatch 0)⟩, "") ∧
    (2 : Nat) ≠ 0 ∧ some (3 : Nat) ≠ some 2 := by
  exact ⟨rfl, by decide, by decide⟩

/-- C9 (amended): a single-character char literal with its closing quote
missing is a hard error anchored one character wide at the offset where the
closing quote was expected, with the opening quote's offset in the payload;
for `'a` that is start 2, end 3, payload 0. -/
theorem claim_C9_unterminated_char :
    (∀ c rest off, c ≠ bslash → head_not squote rest = true →
      parse_char ⟨squote :: c :: rest, off⟩ =
        (.error (some ((ParseCharError.expectedClosingQuoteToMatch off).at_one
          (off + 1 + c.utf8Size))), ⟨rest, off + 1 + c.utf8Size⟩)) ∧
    from_str (String.mk [squote, 'a']) =
      (.error ⟨2, some 3, .char (.expectedClosingQuoteToMatch 0)⟩, "") := by
  exact ⟨fun c rest off hc hr => parse_char_missing_close c hc rest hr off, rfl⟩

/-- C9 witness: the general half at the concrete input `'a`. -/
theorem claim_C9_unterminated_char_witness :
    parse_char ⟨[squote, 'a'], 0⟩ =
      (.error (some ((ParseCharError.expectedClosingQuoteToMatch 0).at_one 2)), ⟨[], 2⟩) := by
  have h := claim_C9_unterminated_char.1 'a' [] 0 (by decide) (by decide)
  simpa using h

/-- C10: the parser skips no whitespace before a top-level value: any input
whose first character is whitespace fails with "expected a value" at offset
0, the whole input left as remaining text — even when a valid value follows
the whitespace. -/
theorem claim_C10_no_leading_whitespace (c : Char) (cs : List Char)
    (h : c.isWhitespace = true) :
    from_str (String.mk (c :: cs)) =
      (.error ⟨0, none, .expectedValue⟩, String.mk (c :: cs)) := by
  have key : parse_value (cs.length + 1 + 1) ⟨c :: cs, 0⟩ =
      (.error (ParseError.new_at .expectedValue 0), ⟨c :: cs, 0⟩) := by
    rcases whitespace_cases h with rfl | rfl | rfl | rfl <;>
      exact parse_value_head_reject _ cs 0 (by decide) (by decide) (by decide) (by decide)
        (by decide) (by decide) (by decide) (by decide) (by decide) (by decide) (by decide)
        (by decide)
  unfold from_str
  rw [show (String.mk (c :: cs)).toList = c :: cs from rfl]
  rw [show (c :: cs).length + 1 = cs.length + 1 + 1 from rfl]
  rw [key]
  rfl

/-- C10 witness: a space followed by the valid value `true`. -/
theorem claim_C10_no_leading_whitespace_witness :
    from_str " true" = (.error ⟨0, none, .expectedValue⟩, " true") := by
  have h := claim_C10_no_leading_whitespace ' ' "true".toList (by decide)
  simpa using h

end ScaleValue
